import Mathlib

/-!
Verification development for the TarjanPlanner route-computation core
(TarjanPlanner/compute_route.py, TarjanPlanner/decorators.py).

Shallow embedding conventions:
- machine floats are modelled as rationals (ℚ); the geodesic distance
  function of geopy is kept abstract as a parameter `dist : Point → Point → ℚ`;
- Python dicts that preserve insertion order are modelled as association
  lists in the same order;
- Python exceptions are modelled with `Except`, or with an explicit
  `Option LoadError` component of the returned state when the source
  mutates module-level globals before raising;
- the regular-expression checks of `_load_modes` are modelled on the
  string produced by the Python `str(...)` call, as decidable predicates
  on the character list.
-/

namespace TarjanPlanner

/-! ## Transport-model loading (`_load_modes`) -/

/-- Fields of one entry of `mode_of_transport.json`, after the `str(...)`
conversion that `_load_modes` applies before the regex check. -/
structure ModeFields where
  speed : String
  cost_per_km : String
  transfer_time_min : String
deriving DecidableEq, Repr

/-- Matching of the body `([0-9]*[.])?[0-9]+` of the numeric regex as a
prefix of the character list, with the backtracking semantics of
`re.match`: either at least one leading digit, or the maximal leading
digit run followed by a dot and a digit. -/
def numBody (cs : List Char) : Bool :=
  let ds := cs.takeWhile Char.isDigit
  (!ds.isEmpty) ||
    (match cs.drop ds.length with
     | '.' :: c :: _ => c.isDigit
     | _ => false)

/-- Model of `re.match(r"[+-]?([0-9]*[.])?[0-9]+", s)`: `re.match` only
anchors at the start of the string, so this is prefix matching.  Note
that the pattern accepts a leading minus sign, so negative numbers pass
the check in the source. -/
def matchesNum (s : String) : Bool :=
  match s.data with
  | [] => false
  | c :: rest => if c = '+' || c = '-' then numBody rest else numBody (c :: rest)

/-- Model of `re.match(r"^\d \d{1,2}$", s)`: one digit, one space, then
one or two digits, anchored on both sides. -/
def isRouteKey (s : String) : Bool :=
  match s.data with
  | [a, ' ', b] => a.isDigit && b.isDigit
  | [a, ' ', b, c] => a.isDigit && b.isDigit && c.isDigit
  | _ => false

/-- Split a character list at the first space, as `str.split()` does on
a key that passed the route-key regex (exactly one space). -/
def splitAtSpace : List Char → List Char × List Char
  | [] => ([], [])
  | c :: rest =>
    if c = ' ' then ([], rest)
    else ((splitAtSpace rest).1.cons c, (splitAtSpace rest).2)

/-- Decimal value of a digit string, as Python `int` computes it on the
digit groups of a validated key. -/
def digitsToNat (cs : List Char) : Nat :=
  cs.foldl (fun acc c => acc * 10 + (c.toNat - 48)) 0

/-- Model of `tuple(map(int, route.split()))` on a key that passed the
route-key regex (exactly one space, digits on both sides). -/
def parseRouteKey (s : String) : Nat × Nat :=
  (digitsToNat (splitAtSpace s.data).1, digitsToNat (splitAtSpace s.data).2)

/-- Validation loop over `_modes_of_transport.values()`: every one of the
three numeric fields must pass the numeric regex. -/
def checkModes (ms : List (String × ModeFields)) : Bool :=
  ms.all fun m =>
    matchesNum m.2.speed && matchesNum m.2.cost_per_km && matchesNum m.2.transfer_time_min

/-- Validation loop over `temp_network.items()`: the key must pass the
route-key regex and the mode must be a key of the loaded registry. -/
def checkRoutes (names : List String) (nw : List (String × String)) : Bool :=
  nw.all fun r => isRouteKey r.1 && names.contains r.2

/-- Assignment `d[t] = m` on an insertion-ordered dict: an existing key
keeps its position and gets the new value, a fresh key is appended. -/
def dictInsert (acc : List ((Nat × Nat) × String)) (t : Nat × Nat) (m : String) :
    List ((Nat × Nat) × String) :=
  if acc.any fun e => decide (e.1 = t) then
    acc.map fun e => if e.1 = t then (e.1, m) else e
  else acc ++ [(t, m)]

/-- The fill loop `_transport_network[tup_route] = mode` over the
validated entries. -/
def fillNetwork (nw : List (String × String)) : List ((Nat × Nat) × String) :=
  nw.foldl (fun acc r => dictInsert acc (parseRouteKey r.1) r.2) []

/-- Which of the two `raise ModesImportFailed` paths of `_load_modes`
fired (the modes-of-transport block or the routes block). -/
inductive LoadError where
  | modesError
  | routesError
deriving DecidableEq, Repr

/-- The module-level globals `_modes_of_transport` and
`_transport_network` of compute_route.py. -/
structure TPState where
  modes_of_transport : List (String × ModeFields)
  transport_network : List ((Nat × Nat) × String)
deriving DecidableEq, Repr

/-- Model of `_load_modes` on already-parsed JSON data.  The source
assigns the global `_modes_of_transport` before validating it, and
assigns `_transport_network = {}` before validating the routes, so the
post-state is returned together with the outcome (`none` = no exception,
`some e` = `ModesImportFailed` raised in block `e`). -/
def load_modes (st : TPState) (newModes : List (String × ModeFields))
    (newNetwork : List (String × String)) : TPState × Option LoadError :=
  let st1 : TPState := { st with modes_of_transport := newModes }
  if checkModes newModes then
    let st2 : TPState := { st1 with transport_network := [] }
    if checkRoutes (newModes.map (·.1)) newNetwork then
      ({ st1 with transport_network := fillNetwork newNetwork }, none)
    else (st2, some .routesError)
  else (st1, some .modesError)

/-! ## Numeric transport model and travel time -/

/-- A coordinate pair as it appears in the coordinate lists of the
source (the order of the two components depends on the caller). -/
abbrev Point : Type := ℚ × ℚ

/-- Numeric view of one transport mode, used once loading succeeded and
the fields hold numbers. -/
structure ModeRec where
  speed : ℚ
  cost_per_km : ℚ
  transfer_time_min : ℚ
deriving DecidableEq, Repr

/-- The loaded `_modes_of_transport` registry in numeric view, in
insertion (file) order. -/
abbrev ModeTable : Type := List (String × ModeRec)

/-- Model of `_calculate_travel_time`: geodesic distance over speed
times 60 plus the fixed transfer time.  A lookup of an unregistered mode
name is a `KeyError` in Python; all call sites in the source pass
registered names, and the theorems below carry that hypothesis, so the
`none` branch returns an unused junk value. -/
def calculate_travel_time (modes : ModeTable) (dist : Point → Point → ℚ)
    (s e : Point) (mode : String) : ℚ :=
  match modes.lookup mode with
  | some r => dist s e / r.speed * 60 + r.transfer_time_min
  | none => 0

/-- The `(points[i][1], points[i][0])` swap both graph builders apply to
every stored coordinate pair before computing a distance. -/
def swapPt (p : Point) : Point := (p.2, p.1)

/-! ## Graph model (networkx.Graph as used by the source) -/

/-- Attributes stored on one edge by the graph builders:
`weight`, `travel_time`, optionally `travel_distance`, and
`mode_of_transport`. -/
structure EdgeData where
  weight : ℚ
  travel_time : ℚ
  travel_distance : Option ℚ
  mode_of_transport : String
deriving DecidableEq, Repr

/-- Equality of unordered node pairs, the identification an undirected
networkx graph applies to edge keys. -/
def pairEq (p q : Nat × Nat) : Bool :=
  (decide (p.1 = q.1) && decide (p.2 = q.2)) || (decide (p.1 = q.2) && decide (p.2 = q.1))

/-- An undirected networkx graph: nodes in insertion order and edges in
insertion order, each edge stored under the orientation with which it
was first added. -/
structure Graph where
  nodes : List Nat
  edges : List ((Nat × Nat) × EdgeData)
deriving DecidableEq, Repr

instance {ε α : Type} [DecidableEq ε] [DecidableEq α] : DecidableEq (Except ε α) := fun a b =>
  match a, b with
  | .error x, .error y =>
    if h : x = y then .isTrue (by rw [h]) else .isFalse fun hc => h (by injection hc)
  | .ok x, .ok y =>
    if h : x = y then .isTrue (by rw [h]) else .isFalse fun hc => h (by injection hc)
  | .error _, .ok _ => .isFalse fun hc => Except.noConfusion hc
  | .ok _, .error _ => .isFalse fun hc => Except.noConfusion hc

/-- Model of `Graph.add_node`: a repeated addition is a no-op. -/
def Graph.addNode (g : Graph) (u : Nat) : Graph :=
  if u ∈ g.nodes then g else { g with nodes := g.nodes ++ [u] }

/-- Test whether the unordered pair (u, v) is already an edge. -/
def Graph.hasEdge (g : Graph) (u v : Nat) : Bool :=
  g.edges.any fun e => pairEq e.1 (u, v)

/-- Model of `Graph.add_edge` followed by the attribute assignments of
the builders: missing endpoints are added as nodes, an existing
unordered pair has its attributes replaced in place, a fresh pair is
appended. -/
def Graph.addEdge (g : Graph) (u v : Nat) (d : EdgeData) : Graph :=
  let g1 := (g.addNode u).addNode v
  if g1.hasEdge u v then
    { g1 with edges := g1.edges.map fun e => if pairEq e.1 (u, v) then (e.1, d) else e }
  else
    { g1 with edges := g1.edges ++ [((u, v), d)] }

/-- The stored `weight` attribute of the edge joining u and v, and 0
when there is no such edge (the latter case is a `KeyError` in Python
and is never relied upon below). -/
def edgeWeight (g : Graph) (u v : Nat) : ℚ :=
  match g.edges.find? (fun e => pairEq e.1 (u, v)) with
  | some e => e.2.weight
  | none => 0

/-- The stored `travel_time` attribute of the edge joining u and v. -/
def edgeTravelTime (g : Graph) (u v : Nat) : ℚ :=
  match g.edges.find? (fun e => pairEq e.1 (u, v)) with
  | some e => e.2.travel_time
  | none => 0

/-- Model of the adjacency view `G[u].items()` paired with the `weight`
attribute: neighbors in edge-insertion order. -/
def Graph.neighbors (g : Graph) (u : Nat) : List (Nat × ℚ) :=
  g.edges.filterMap fun e =>
    if e.1.1 = u then some (e.1.2, e.2.weight)
    else if e.1.2 = u then some (e.1.1, e.2.weight)
    else none

/-- Well-formedness every graph actually built through the networkx API
satisfies: node list without duplicates, every edge endpoint a node, and
no two stored edges over the same unordered pair. -/
def Graph.wf (g : Graph) : Prop :=
  g.nodes.Nodup ∧ (∀ e ∈ g.edges, e.1.1 ∈ g.nodes ∧ e.1.2 ∈ g.nodes) ∧
    g.edges.Pairwise fun e1 e2 => pairEq e1.1 e2.1 = false

instance (g : Graph) : Decidable g.wf :=
  inferInstanceAs (Decidable (g.nodes.Nodup ∧
    (∀ e ∈ g.edges, e.1.1 ∈ g.nodes ∧ e.1.2 ∈ g.nodes) ∧
    g.edges.Pairwise fun e1 e2 : (Nat × Nat) × EdgeData => pairEq e1.1 e2.1 = false))

/-! ## Graph builders -/

/-- The iteration order of the double loop
`for i in range(n): for j in range(i+1, n)` of
`_initialize_complete_graph`. -/
def allPairs (n : Nat) : List (Nat × Nat) :=
  (List.range n).flatMap fun i => (List.range' (i + 1) (n - (i + 1))).map fun j => (i, j)

/-- The travel-time closure the complete builder evaluates for the pair
(i, j): the dict comprehension
`{mode: _calculate_travel_time((points[i][1], points[i][0]), ...) for mode in _modes_of_transport}`
as a function of the mode name. -/
def ttFun (modes : ModeTable) (dist : Point → Point → ℚ) (points : List Point)
    (i j : Nat) : String → ℚ := fun m =>
  calculate_travel_time modes dist (swapPt (points.getD i (0, 0)))
    (swapPt (points.getD j (0, 0))) m

/-- Model of `min(travel_time, key=travel_time.get)`: scan the dict keys
in insertion order keeping the current best, replacing it only on a
strictly smaller key value, so ties keep the first-loaded mode.  The
`none` case is the `ValueError` Python raises for an empty dict. -/
def pyMinKey (tt : String → ℚ) : List String → Option String
  | [] => none
  | m :: ms => some (ms.foldl (fun b m2 => if tt m2 < tt b then m2 else b) m)

/-- The per-pair body of `_initialize_complete_graph`: travel time under
every loaded mode, then the minimising mode, stored as both `weight` and
`travel_time` together with `mode_of_transport`.  The junk arm models
the `ValueError` of `min` on an empty registry; all theorems assume a
nonempty registry. -/
def mkCompleteEdge (modes : ModeTable) (dist : Point → Point → ℚ)
    (points : List Point) (i j : Nat) : EdgeData :=
  match pyMinKey (ttFun modes dist points i j) (modes.map (·.1)) with
  | none => { weight := 0, travel_time := 0, travel_distance := none, mode_of_transport := "" }
  | some om =>
    { weight := ttFun modes dist points i j om, travel_time := ttFun modes dist points i j om,
      travel_distance := none, mode_of_transport := om }

/-- Model of `_initialize_complete_graph`: one node per point, then one
`add_edge` per ordered pair i < j with the minimising mode. -/
def initialize_complete_graph (modes : ModeTable) (dist : Point → Point → ℚ)
    (points : List Point) : Graph :=
  (allPairs points.length).foldl
    (fun g p => g.addEdge p.1 p.2 (mkCompleteEdge modes dist points p.1 p.2))
    { nodes := List.range points.length, edges := [] }

/-- The attributes the restricted builder stores for the table entry
`(s, t) -> mode`: travel time (as `weight` and `travel_time`), the
recomputed geodesic distance, and the assigned mode. -/
def restrictedData (modes : ModeTable) (dist : Point → Point → ℚ) (points : List Point)
    (s t : Nat) (mode : String) : EdgeData :=
  { weight := calculate_travel_time modes dist (swapPt (points.getD s (0, 0)))
      (swapPt (points.getD t (0, 0))) mode,
    travel_time := calculate_travel_time modes dist (swapPt (points.getD s (0, 0)))
      (swapPt (points.getD t (0, 0))) mode,
    travel_distance := some (dist (swapPt (points.getD s (0, 0))) (swapPt (points.getD t (0, 0)))),
    mode_of_transport := mode }

/-- The loop of `_initialize_graph` over `_transport_network.items()`.
`points[start]` on an out-of-range index is an `IndexError` in Python,
modelled by the error case. -/
def initGraphGo (modes : ModeTable) (dist : Point → Point → ℚ) (points : List Point) :
    List ((Nat × Nat) × String) → Graph → Except Unit Graph
  | [], g => .ok g
  | (r, mode) :: rest, g =>
    if r.1 < points.length ∧ r.2 < points.length then
      initGraphGo modes dist points rest
        (g.addEdge r.1 r.2 (restrictedData modes dist points r.1 r.2 mode))
    else .error ()

/-- Model of `_initialize_graph` (the restricted strategy used by the
live pipeline): one node per point, then one `add_edge` per entry of the
fixed transport-network table. -/
def initialize_graph (modes : ModeTable) (dist : Point → Point → ℚ)
    (network : List ((Nat × Nat) × String)) (points : List Point) : Except Unit Graph :=
  initGraphGo modes dist points network { nodes := List.range points.length, edges := [] }

/-- Accumulating unordered deduplication of a pair list: the evolution
of the edge-key list of an undirected graph as pairs are added in
order. -/
def dedupFrom (acc : List (Nat × Nat)) : List (Nat × Nat) → List (Nat × Nat)
  | [] => acc
  | p :: rest => dedupFrom (if acc.any (fun q => pairEq q p) then acc else acc ++ [p]) rest

/-- Unordered deduplication of a pair list in first-occurrence order:
the set of edge keys an undirected graph ends up with after adding the
pairs in order. -/
def dedupPairs (l : List (Nat × Nat)) : List (Nat × Nat) :=
  dedupFrom [] l

/-! ## Exact solver (`_dfs_tsp`) -/

/-- Comparison `route[1] < shortest_time` of the source, where
`shortest_time` starts at `float("inf")`, modelled as `none`. -/
def ltB (c : ℚ) : Option ℚ → Bool
  | none => true
  | some b => decide (c < b)

/-- The best-route update of `recurse_tree`: overwrite only on a
strictly lower completed-route cost. -/
def stepBest (best : List Nat × Option ℚ) (route : List Nat × ℚ) : List Nat × Option ℚ :=
  if ltB route.2 best.2 then (route.1, some route.2) else best

/-- The loop `for next_node, data in G[node].items()` of `recurse_tree`:
skip visited nodes, otherwise extend the route copy and recurse,
threading the nonlocal best through. -/
def dfs_loop (f : Nat → List Nat × ℚ → List Nat × Option ℚ → Except Unit (List Nat × Option ℚ)) :
    List (Nat × ℚ) → List Nat × ℚ → List Nat × Option ℚ → Except Unit (List Nat × Option ℚ)
  | [], _, best => .ok best
  | (next, w) :: rest, route, best =>
    if next ∈ route.1 then dfs_loop f rest route best
    else
      match f next (route.1 ++ [next], route.2 + w) best with
      | .ok best1 => dfs_loop f rest route best1
      | .error e => .error e

/-- Model of the inner `recurse_tree` of `_dfs_tsp`.  The fuel argument
only bounds the recursion depth; every reachable call site uses a route
of nodes of the graph without duplicates, so `G.nodes.length` fuel is
enough (proved below) and the fuel-exhaustion branch is dead.  Accessing
`G[node]` for a node outside the graph is a Python `KeyError`, modelled
by the error case. -/
def recurse_tree (G : Graph) (fuel : Nat) (node : Nat) (route : List Nat × ℚ)
    (best : List Nat × Option ℚ) : Except Unit (List Nat × Option ℚ) :=
  if route.1.length = G.nodes.length then .ok (stepBest best route)
  else if node ∈ G.nodes then
    match fuel with
    | 0 => .error ()
    | fuel2 + 1 => dfs_loop (fun n r b => recurse_tree G fuel2 n r b) (G.neighbors node) route best
  else .error ()

/-- Model of `_dfs_tsp`: start from `best_route = [0]`,
`shortest_time = inf`, initial route `[[0], 0]`, and return the final
best route. -/
def dfs_tsp (G : Graph) : Except Unit (List Nat) :=
  match recurse_tree G G.nodes.length 0 ([0], 0) ([0], none) with
  | .ok best => .ok best.1
  | .error e => .error e

/-- Total weight of a node sequence: sum of the stored `weight`
attributes of consecutive pairs. -/
def routeCost (g : Graph) : List Nat → ℚ
  | u :: v :: rest => edgeWeight g u v + routeCost g (v :: rest)
  | _ => 0

/-- Consecutive elements are joined by edges of the graph. -/
def isChain (g : Graph) (r : List Nat) : Prop :=
  List.Chain' (fun u v => g.hasEdge u v = true) r

/-- A full route of the graph extending a given partial route: it keeps
the prefix, repeats no node, stays inside the node set, visits as many
nodes as the graph has, and only moves along edges. -/
def Completion (g : Graph) (base r : List Nat) : Prop :=
  base <+: r ∧ r.Nodup ∧ (∀ x ∈ r, x ∈ g.nodes) ∧ r.length = g.nodes.length ∧ isChain g r

instance instDecIsChain (g : Graph) : (r : List Nat) → Decidable (isChain g r)
  | [] => .isTrue trivial
  | [_] => .isTrue (List.chain'_singleton _)
  | u :: v :: rest =>
    if h : g.hasEdge u v = true then
      match instDecIsChain g (v :: rest) with
      | .isTrue hc => .isTrue (List.chain'_cons.mpr ⟨h, hc⟩)
      | .isFalse hc => .isFalse fun hcc => hc (List.chain'_cons.mp hcc).2
    else .isFalse fun hcc => h (List.chain'_cons.mp hcc).1

instance (g : Graph) (base r : List Nat) : Decidable (Completion g base r) :=
  inferInstanceAs (Decidable (base <+: r ∧ r.Nodup ∧ (∀ x ∈ r, x ∈ g.nodes) ∧
    r.length = g.nodes.length ∧ isChain g r))

/-- A valid complete permutation starting at node 0: exactly the routes
the source DFS can complete. -/
def validRoute (g : Graph) (r : List Nat) : Prop := Completion g [0] r

instance (g : Graph) (r : List Nat) : Decidable (validRoute g r) :=
  inferInstanceAs (Decidable (Completion g [0] r))

/-- Order on tracked best costs, where `none` is `float("inf")`. -/
def oLE (o1 o2 : Option ℚ) : Prop :=
  match o2 with
  | none => True
  | some b => ∃ c, o1 = some c ∧ c ≤ b

/-- Specification of one recursive DFS call: the returned best is either
the incoming best or a completion of the current route paired with its
cost, it never worsens the incoming best, and it is at most the cost of
every completion of the current route. -/
def ResSpec (g : Graph) (base : List Nat) (best res : List Nat × Option ℚ) : Prop :=
  (res = best ∨ ∃ r, Completion g base r ∧ res = (r, some (routeCost g r))) ∧
  oLE res.2 best.2 ∧
  ∀ r, Completion g base r → ∃ c, res.2 = some c ∧ c ≤ routeCost g r

/-- A completion whose first step uses one of the still-pending
neighbor entries. -/
def CompletionVia (g : Graph) (base : List Nat) (L : List (Nat × ℚ)) (r : List Nat) : Prop :=
  Completion g base r ∧
    ∃ next w rest, (next, w) ∈ L ∧ next ∉ base ∧ r = base ++ next :: rest

/-- Specification of the neighbor loop restricted to the pending
suffix L of the neighbor list. -/
def ResSpecVia (g : Graph) (base : List Nat) (L : List (Nat × ℚ))
    (best res : List Nat × Option ℚ) : Prop :=
  (res = best ∨ ∃ r, CompletionVia g base L r ∧ res = (r, some (routeCost g r))) ∧
  oLE res.2 best.2 ∧
  ∀ r, CompletionVia g base L r → ∃ c, res.2 = some c ∧ c ≤ routeCost g r

/-! ## Result aggregation (`calculate_route`) -/

/-- The data `calculate_route` derives from the solved route: the
returned coordinate sequence, and the two totals interpolated into the
plot title. -/
structure RouteSummary where
  points : List Point
  total_time : ℚ
  total_distance : ℚ
deriving DecidableEq, Repr

/-- Sum of `graph[i][j]["travel_time"]` over consecutive route pairs. -/
def sumConsecutive (f : Nat → Nat → ℚ) : List Nat → ℚ
  | u :: v :: rest => f u v + sumConsecutive f (v :: rest)
  | _ => 0

/-- Sum of the per-edge distances `_calculate_distance_km` recomputed on
the swapped route points, as in the `travel_distances` dict (route nodes
are pairwise distinct, so the dict keys never collide). -/
def sumDistances (dist : Point → Point → ℚ) : List Point → ℚ
  | p :: q :: rest => dist (swapPt p) (swapPt q) + sumDistances dist (q :: rest)
  | _ => 0

/-- Model of the computational core of `calculate_route`: build the
swapped coordinate list, run `_find_optimal_route` (restricted builder
plus DFS), and aggregate the returned points and the two totals.  The
plotting calls are display-only and omitted. -/
def calculate_route (modes : ModeTable) (dist : Point → Point → ℚ)
    (network : List ((Nat × Nat) × String)) (start_point : ℚ × ℚ)
    (relatives : List (ℚ × ℚ)) : Except Unit RouteSummary :=
  let coordinates : List Point :=
    (start_point.2, start_point.1) :: relatives.map fun r => (r.2, r.1)
  match initialize_graph modes dist network coordinates with
  | .error e => .error e
  | .ok graph =>
    match dfs_tsp graph with
    | .error e => .error e
    | .ok route =>
      let route_points := route.map fun n => coordinates.getD n (0, 0)
      .ok { points := route_points,
            total_time := sumConsecutive (edgeTravelTime graph) route,
            total_distance := sumDistances dist route_points }

/-! ## Memoization decorator (`decorators.cache`) -/

/-- Model of the `cache` decorator applied to a function: one slot per
function, holding the last `(args, result)`.  The wrapped function reads
module-level data (the loaded transport modes), modelled by the explicit
`env` argument; the slot key is the call arguments only. -/
def cachedCall {α β γ : Type} [DecidableEq α] (f : α → γ → β) (env : γ)
    (slot : Option (α × β)) (a : α) : β × Option (α × β) :=
  match slot with
  | some (a0, r0) =>
    if a0 = a then (r0, some (a0, r0))
    else
      let r := f a env
      (r, some (a, r))
  | none =>
    let r := f a env
    (r, some (a, r))

/-! ## Concrete fixtures used by witnesses and counterexamples -/

/-- A previously loaded valid registry state. -/
def prevState : TPState :=
  { modes_of_transport := [("bus", { speed := "40", cost_per_km := "2", transfer_time_min := "5" })],
    transport_network := [((0, 1), "bus")] }

/-- A concrete symmetric distance function standing in for the geodesic
distance in concrete evaluations. -/
def taxi : Point → Point → ℚ := fun a b => |a.1 - b.1| + |a.2 - b.2|

/-- A concrete numeric mode registry. -/
def modesQ : ModeTable :=
  [("bus", { speed := 40, cost_per_km := 2, transfer_time_min := 5 }),
   ("train", { speed := 80, cost_per_km := 5, transfer_time_min := 2 })]

/-- Three collinear concrete points. -/
def pts3 : List Point := [(0, 0), (1, 0), (3, 0)]

/-- A disconnected concrete graph: node 2 is unreachable, so no
Hamiltonian path from node 0 exists. -/
def gDisc : Graph :=
  { nodes := [0, 1, 2],
    edges := [((0, 1),
      { weight := 1, travel_time := 1, travel_distance := none, mode_of_transport := "bus" })] }

/-! ## Basic lemmas on pairs, nodes and edges -/

lemma pairEq_iff (p q : Nat × Nat) :
    pairEq p q = true ↔ (p.1 = q.1 ∧ p.2 = q.2) ∨ (p.1 = q.2 ∧ p.2 = q.1) := by
  simp [pairEq]

lemma pairEq_refl (p : Nat × Nat) : pairEq p p = true := by
  simp [pairEq]

lemma pairEq_comm (p q : Nat × Nat) : pairEq p q = pairEq q p := by
  rw [Bool.eq_iff_iff, pairEq_iff, pairEq_iff]
  constructor <;> rintro (⟨h1, h2⟩ | ⟨h1, h2⟩)
  · exact Or.inl ⟨h1.symm, h2.symm⟩
  · exact Or.inr ⟨h2.symm, h1.symm⟩
  · exact Or.inl ⟨h1.symm, h2.symm⟩
  · exact Or.inr ⟨h2.symm, h1.symm⟩

lemma pairEq_trans {p q t : Nat × Nat} (h1 : pairEq p t = true) (h2 : pairEq q t = true) :
    pairEq p q = true := by
  rw [pairEq_iff] at h1 h2 ⊢
  omega

lemma addNode_of_mem {g : Graph} {u : Nat} (h : u ∈ g.nodes) : g.addNode u = g := by
  simp [Graph.addNode, h]

lemma addNode_edges (g : Graph) (u : Nat) : (g.addNode u).edges = g.edges := by
  unfold Graph.addNode
  split <;> rfl

lemma addEdge_fresh {g : Graph} {u v : Nat} {d : EdgeData} (hu : u ∈ g.nodes)
    (hv : v ∈ g.nodes) (h : g.hasEdge u v = false) :
    g.addEdge u v d = { g with edges := g.edges ++ [((u, v), d)] } := by
  unfold Graph.addEdge
  simp only [addNode_of_mem hu, addNode_of_mem hv]
  rw [h]
  simp

lemma addEdge_nodes {g : Graph} {u v : Nat} {d : EdgeData} (hu : u ∈ g.nodes)
    (hv : v ∈ g.nodes) : (g.addEdge u v d).nodes = g.nodes := by
  unfold Graph.addEdge
  simp only [addNode_of_mem hu, addNode_of_mem hv]
  split <;> rfl

lemma addEdge_pairs {g : Graph} {u v : Nat} {d : EdgeData} (hu : u ∈ g.nodes)
    (hv : v ∈ g.nodes) :
    (g.addEdge u v d).edges.map (·.1) =
      if g.hasEdge u v then g.edges.map (·.1) else g.edges.map (·.1) ++ [(u, v)] := by
  unfold Graph.addEdge
  simp only [addNode_of_mem hu, addNode_of_mem hv]
  by_cases hc : g.hasEdge u v = true
  · rw [if_pos hc, if_pos hc]
    show (g.edges.map fun e => if pairEq e.1 (u, v) = true then (e.1, d) else e).map (·.1) =
      g.edges.map (·.1)
    rw [List.map_map]
    refine List.map_congr_left fun e _ => ?_
    simp only [Function.comp]
    split <;> rfl
  · rw [if_neg hc, if_neg hc]
    show (g.edges ++ [((u, v), d)]).map (·.1) = g.edges.map (·.1) ++ [(u, v)]
    simp

lemma addEdge_prop {P : (Nat × Nat) × EdgeData → Prop} {g : Graph} {u v : Nat} {d : EdgeData}
    (hg : ∀ e ∈ g.edges, P e)
    (hd : ∀ x y, pairEq (x, y) (u, v) = true → P ((x, y), d)) :
    ∀ e ∈ (g.addEdge u v d).edges, P e := by
  unfold Graph.addEdge Graph.hasEdge
  simp only [addNode_edges]
  split
  · intro e he
    rw [List.mem_map] at he
    rcases he with ⟨e0, he0, rfl⟩
    split
    · next hpe => exact hd e0.1.1 e0.1.2 hpe
    · exact hg e0 he0
  · intro e he
    rcases List.mem_append.mp he with h | h
    · exact hg e h
    · rw [List.mem_singleton] at h
      subst h
      exact hd u v (pairEq_refl _)

lemma foldl_addEdge_eq (f : Nat × Nat → EdgeData) :
    ∀ (L : List (Nat × Nat)) (g : Graph),
      (∀ p ∈ L, p.1 ∈ g.nodes ∧ p.2 ∈ g.nodes) →
      (∀ p ∈ L, g.hasEdge p.1 p.2 = false) →
      L.Pairwise (fun p q => pairEq p q = false) →
      L.foldl (fun g2 p => g2.addEdge p.1 p.2 (f p)) g =
        { nodes := g.nodes, edges := g.edges ++ L.map fun p => (p, f p) } := by
  intro L
  induction L with
  | nil => intro g _ _ _; simp
  | cons p L ih =>
    intro g hmem hfree hpw
    have hp := hmem p (by simp)
    have hf := hfree p (by simp)
    rw [List.foldl_cons, addEdge_fresh hp.1 hp.2 hf, ih]
    · simp
    · intro q hq
      exact hmem q (List.mem_cons_of_mem _ hq)
    · intro q hq
      have h1 := hfree q (List.mem_cons_of_mem _ hq)
      have h2 : pairEq p q = false := (List.pairwise_cons.mp hpw).1 q hq
      show (g.edges ++ [((p.1, p.2), f p)]).any (fun e => pairEq e.1 (q.1, q.2)) = false
      unfold Graph.hasEdge at h1
      have h3 : List.any [((p.1, p.2), f p)] (fun e => pairEq e.1 (q.1, q.2)) = false := by
        simp only [List.any_cons, List.any_nil, Bool.or_false]
        exact h2
      rw [List.any_append, h1, h3]
      rfl
    · exact (List.pairwise_cons.mp hpw).2

/-! ## Lemmas on allPairs and the complete builder -/

lemma mem_allPairs {n : Nat} {p : Nat × Nat} (h : p ∈ allPairs n) :
    p.1 < p.2 ∧ p.2 < n := by
  rw [allPairs, List.mem_flatMap] at h
  rcases h with ⟨i, hi, hp⟩
  rw [List.mem_map] at hp
  rcases hp with ⟨j, hj, rfl⟩
  rw [List.mem_range] at hi
  rw [List.mem_range'_1] at hj
  constructor <;> [skip; skip] <;> simp <;> omega

lemma allPairs_nodup (n : Nat) : (allPairs n).Nodup := by
  rw [allPairs, List.nodup_flatMap]
  constructor
  · intro i _
    refine List.Nodup.map ?_ (List.nodup_range' ..)
    intro a b hab
    simpa using hab
  · refine List.Pairwise.imp_of_mem ?_ ((List.nodup_range n))
    intro i j _ _ hne x hxi hxj
    rw [List.mem_map] at hxi hxj
    rcases hxi with ⟨a, _, rfl⟩
    rcases hxj with ⟨b, _, hb⟩
    exact hne (by simpa using congrArg Prod.fst hb.symm)

lemma allPairs_pairwise (n : Nat) :
    (allPairs n).Pairwise fun p q => pairEq p q = false := by
  refine List.Pairwise.imp_of_mem ?_ (allPairs_nodup n)
  intro p q hp hq hne
  have h1 := mem_allPairs hp
  have h2 := mem_allPairs hq
  rw [← Bool.not_eq_true, pairEq_iff]
  rintro (⟨ha, hb⟩ | ⟨ha, hb⟩)
  · exact hne (Prod.ext_iff.mpr ⟨ha, hb⟩)
  · omega

lemma sum_map_range (f : ℕ → ℕ) : ∀ n, ((List.range n).map f).sum = ∑ i ∈ Finset.range n, f i := by
  intro n
  induction n with
  | zero => simp
  | succ k ih =>
    rw [List.range_succ, List.map_append, List.sum_append, Finset.sum_range_succ, ih]
    simp

lemma allPairs_length (n : Nat) : (allPairs n).length = n * (n - 1) / 2 := by
  rw [allPairs, List.length_flatMap]
  have h1 : List.map (List.length ∘ fun i => (List.range' (i + 1) (n - (i + 1))).map fun j => (i, j))
      (List.range n) = (List.range n).map fun i => n - (i + 1) := by
    refine List.map_congr_left fun a _ => ?_
    simp [List.length_range']
  rw [h1, sum_map_range]
  have h2 : ∑ i ∈ Finset.range n, (n - (i + 1)) = ∑ i ∈ Finset.range n, i := by
    calc ∑ i ∈ Finset.range n, (n - (i + 1)) = ∑ i ∈ Finset.range n, (n - 1 - i) :=
          Finset.sum_congr rfl fun i _ => by omega
      _ = ∑ i ∈ Finset.range n, i := Finset.sum_range_reflect (fun i => i) n
  rw [h2, Finset.sum_range_id]

lemma initialize_complete_graph_eq (modes : ModeTable) (dist : Point → Point → ℚ)
    (points : List Point) :
    initialize_complete_graph modes dist points =
      { nodes := List.range points.length,
        edges := (allPairs points.length).map
          fun p => (p, mkCompleteEdge modes dist points p.1 p.2) } := by
  unfold initialize_complete_graph
  rw [foldl_addEdge_eq (fun p => mkCompleteEdge modes dist points p.1 p.2)]
  · simp
  · intro p hp
    have h := mem_allPairs hp
    constructor <;> simp [List.mem_range] <;> omega
  · intro p _
    rfl
  · exact allPairs_pairwise _

/-! ## Lemmas on the Python min scan -/

lemma foldlMin_spec (tt : String → ℚ) :
    ∀ (ms : List String) (m : String),
      (ms.foldl (fun b m2 => if tt m2 < tt b then m2 else b) m) ∈ m :: ms ∧
      (∀ x ∈ m :: ms, tt (ms.foldl (fun b m2 => if tt m2 < tt b then m2 else b) m) ≤ tt x) ∧
      ∃ pre post, m :: ms = pre ++ (ms.foldl (fun b m2 => if tt m2 < tt b then m2 else b) m) :: post ∧
        ∀ x ∈ pre, tt (ms.foldl (fun b m2 => if tt m2 < tt b then m2 else b) m) < tt x := by
  intro ms
  induction ms with
  | nil =>
    intro m
    refine ⟨by simp, by simp, [], [], by simp, by simp⟩
  | cons m2 rest ih =>
    intro m
    rw [List.foldl_cons]
    by_cases hlt : tt m2 < tt m
    · rw [if_pos hlt]
      rcases ih m2 with ⟨hmem, hle, pre, post, hdec, hstrict⟩
      refine ⟨List.mem_cons_of_mem _ hmem, ?_, m :: pre, post, ?_, ?_⟩
      · intro x hx
        rcases List.mem_cons.mp hx with rfl | hx2
        · exact le_of_lt (lt_of_le_of_lt (hle m2 (by simp)) hlt)
        · exact hle x hx2
      · rw [List.cons_append, ← hdec]
      · intro x hx
        rcases List.mem_cons.mp hx with rfl | hx2
        · exact lt_of_le_of_lt (hle m2 (by simp)) hlt
        · exact hstrict x hx2
    · rw [if_neg hlt]
      have hmle : tt m ≤ tt m2 := le_of_not_lt hlt
      rcases ih m with ⟨hmem, hle, pre, post, hdec, hstrict⟩
      refine ⟨?_, ?_, ?_⟩
      · rcases List.mem_cons.mp hmem with h | h
        · rw [h]; exact List.mem_cons_self _ _
        · exact List.mem_cons_of_mem _ (List.mem_cons_of_mem _ h)
      · intro x hx
        rcases List.mem_cons.mp hx with rfl | hx2
        · exact hle x (List.mem_cons_self _ _)
        · rcases List.mem_cons.mp hx2 with rfl | hx3
          · exact le_trans (hle m (List.mem_cons_self _ _)) hmle
          · exact hle x (List.mem_cons_of_mem _ hx3)
      · cases pre with
        | nil =>
          rw [List.nil_append] at hdec
          injection hdec with hr htl
          refine ⟨[], m2 :: rest, ?_, by simp⟩
          rw [List.nil_append, ← hr]
        | cons hd tl =>
          rw [List.cons_append] at hdec
          injection hdec with hr htl
          refine ⟨m :: m2 :: tl, post, ?_, ?_⟩
          · rw [List.cons_append, List.cons_append, ← htl]
          · intro x hx
            have hm : tt (rest.foldl (fun b m3 => if tt m3 < tt b then m3 else b) m) < tt m := by
              refine hstrict m ?_
              rw [← hr]
              exact List.mem_cons_self _ _
            rcases List.mem_cons.mp hx with rfl | hx2
            · exact hm
            · rcases List.mem_cons.mp hx2 with rfl | hx3
              · exact lt_of_lt_of_le hm hmle
              · refine hstrict x (List.mem_cons_of_mem _ hx3)

lemma pyMinKey_spec (tt : String → ℚ) (l : List String) (hl : l ≠ []) :
    ∃ r, pyMinKey tt l = some r ∧ r ∈ l ∧ (∀ x ∈ l, tt r ≤ tt x) ∧
      ∃ pre post, l = pre ++ r :: post ∧ ∀ x ∈ pre, tt r < tt x := by
  cases l with
  | nil => exact absurd rfl hl
  | cons m ms =>
    rcases foldlMin_spec tt ms m with ⟨h1, h2, h3⟩
    exact ⟨_, rfl, h1, h2, h3⟩

/-- Every edge of the complete graph joins a pair i < j < N and carries
the first mode (in registry order) minimising the travel time of the
pair, with that minimal time stored as both weight and travel time. -/
lemma complete_edge_data {modes : ModeTable} {dist : Point → Point → ℚ} {points : List Point}
    (hm : modes ≠ []) :
    ∀ e ∈ (initialize_complete_graph modes dist points).edges,
      e.1.1 < e.1.2 ∧ e.1.2 < points.length ∧
      e.2.mode_of_transport ∈ modes.map (·.1) ∧
      (∀ x ∈ modes.map (·.1),
        ttFun modes dist points e.1.1 e.1.2 e.2.mode_of_transport ≤
          ttFun modes dist points e.1.1 e.1.2 x) ∧
      (∃ pre post, modes.map (·.1) = pre ++ e.2.mode_of_transport :: post ∧
        ∀ x ∈ pre, ttFun modes dist points e.1.1 e.1.2 e.2.mode_of_transport <
          ttFun modes dist points e.1.1 e.1.2 x) ∧
      e.2.weight = ttFun modes dist points e.1.1 e.1.2 e.2.mode_of_transport ∧
      e.2.travel_time = e.2.weight := by
  intro e he
  rw [initialize_complete_graph_eq, List.mem_map] at he
  rcases he with ⟨p, hp, rfl⟩
  have hb := mem_allPairs hp
  have hml : modes.map (·.1) ≠ [] := fun h => hm (List.map_eq_nil_iff.mp h)
  rcases pyMinKey_spec (ttFun modes dist points p.1 p.2) _ hml with
    ⟨r, hpm, hrmem, hrle, pre, post, hdec, hstrict⟩
  have hdata : mkCompleteEdge modes dist points p.1 p.2 =
      { weight := ttFun modes dist points p.1 p.2 r,
        travel_time := ttFun modes dist points p.1 p.2 r,
        travel_distance := none, mode_of_transport := r } := by
    unfold mkCompleteEdge
    rw [hpm]
  rw [hdata]
  exact ⟨hb.1, hb.2, hrmem, hrle, ⟨pre, post, hdec, hstrict⟩, rfl, rfl⟩

/-- A name appearing in the registry key list can be looked up. -/
lemma lookup_of_mem_names {modes : ModeTable} {m : String} (h : m ∈ modes.map (·.1)) :
    ∃ rec, modes.lookup m = some rec := by
  induction modes with
  | nil => simp at h
  | cons p rest ih =>
    rw [List.map_cons, List.mem_cons] at h
    by_cases he : m = p.1
    · exact ⟨p.2, by simp [List.lookup, he]⟩
    · have hm2 : m ∈ rest.map (·.1) := by
        rcases h with h | h
        · exact absurd h he
        · exact h
      rcases ih hm2 with ⟨rec, hrec⟩
      refine ⟨rec, ?_⟩
      have : (m == p.1) = false := by
        rw [beq_eq_false_iff_ne]
        exact he
      simp [List.lookup, this, hrec]

/-- The complete graph is well formed. -/
lemma initialize_complete_graph_wf (modes : ModeTable) (dist : Point → Point → ℚ)
    (points : List Point) : (initialize_complete_graph modes dist points).wf := by
  rw [initialize_complete_graph_eq]
  refine ⟨List.nodup_range _, ?_, ?_⟩
  · intro e he
    rw [List.mem_map] at he
    rcases he with ⟨p, hp, rfl⟩
    have hb := mem_allPairs hp
    constructor <;> simp [List.mem_range] <;> omega
  · rw [List.pairwise_map]
    exact allPairs_pairwise _

/-! ## Lemmas on the restricted builder -/

lemma any_map_fst (l : List ((Nat × Nat) × EdgeData)) (p : Nat × Nat → Bool) :
    (l.map (·.1)).any p = l.any fun e => p e.1 := by
  induction l with
  | nil => rfl
  | cons e rest ih => simp only [List.map_cons, List.any_cons, ih]

/-- hasEdge expressed on the list of stored edge keys. -/
lemma hasEdge_map (g : Graph) (u v : Nat) :
    g.hasEdge u v = (g.edges.map (·.1)).any fun q => pairEq q (u, v) := by
  unfold Graph.hasEdge
  rw [any_map_fst]

/-- One-step unfolding of dedupFrom. -/
lemma dedupFrom_cons (acc : List (Nat × Nat)) (p : Nat × Nat) (l : List (Nat × Nat)) :
    dedupFrom acc (p :: l) =
      dedupFrom (if acc.any (fun q => pairEq q p) then acc else acc ++ [p]) l := rfl

lemma mem_dedupFrom : ∀ (l : List (Nat × Nat)) (acc : List (Nat × Nat)) (x : Nat × Nat),
    x ∈ dedupFrom acc l → x ∈ acc ∨ x ∈ l := by
  intro l
  induction l with
  | nil => intro acc x h; exact Or.inl h
  | cons p rest ih =>
    intro acc x h
    unfold dedupFrom at h
    rcases ih _ x h with h2 | h2
    · split at h2
      · exact Or.inl h2
      · rcases List.mem_append.mp h2 with h3 | h3
        · exact Or.inl h3
        · rw [List.mem_singleton] at h3
          exact Or.inr (h3 ▸ List.mem_cons_self _ _)
    · exact Or.inr (List.mem_cons_of_mem _ h2)

lemma dedupFrom_pairwise : ∀ (l : List (Nat × Nat)) (acc : List (Nat × Nat)),
    acc.Pairwise (fun a b => pairEq a b = false) →
    (dedupFrom acc l).Pairwise (fun a b => pairEq a b = false) := by
  intro l
  induction l with
  | nil => intro acc h; exact h
  | cons p rest ih =>
    intro acc h
    unfold dedupFrom
    split
    · exact ih _ h
    · next hany =>
      refine ih _ ?_
      rw [List.pairwise_append]
      refine ⟨h, List.pairwise_singleton _ _, ?_⟩
      intro a ha b hb
      rw [List.mem_singleton] at hb
      cases hpe : pairEq a b
      · rfl
      · exfalso
        apply hany
        rw [List.any_eq_true]
        exact ⟨a, ha, hb ▸ hpe⟩

/-- One step plus tail of the restricted-builder loop, parameterised by
an arbitrary per-edge invariant P that the stored data satisfies. -/
lemma initGraphGo_ok (modes : ModeTable) (dist : Point → Point → ℚ) (points : List Point)
    (P : (Nat × Nat) × EdgeData → Prop)
    (hP : ∀ (s t : Nat) (mode : String), s < points.length → t < points.length →
      ∀ x y, pairEq (x, y) (s, t) = true →
        P ((x, y), restrictedData modes dist points s t mode)) :
    ∀ (nw : List ((Nat × Nat) × String)) (g : Graph),
      (∀ r ∈ nw, r.1.1 < points.length ∧ r.1.2 < points.length) →
      g.nodes = List.range points.length →
      (∀ e ∈ g.edges, P e) →
      ∃ g2, initGraphGo modes dist points nw g = .ok g2 ∧
        g2.nodes = List.range points.length ∧
        g2.edges.map (·.1) = dedupFrom (g.edges.map (·.1)) (nw.map (·.1)) ∧
        (∀ e ∈ g2.edges, P e) := by
  intro nw
  induction nw with
  | nil =>
    intro g _ hn hPg
    exact ⟨g, rfl, hn, rfl, hPg⟩
  | cons entry rest ih =>
    rcases entry with ⟨⟨s, t⟩, mode⟩
    intro g hidx hn hPg
    have hp := hidx _ (List.mem_cons_self _ _)
    have hs : s < points.length := hp.1
    have ht : t < points.length := hp.2
    have hu : s ∈ g.nodes := by rw [hn, List.mem_range]; exact hs
    have hv : t ∈ g.nodes := by rw [hn, List.mem_range]; exact ht
    simp only [initGraphGo]
    rw [if_pos ⟨hs, ht⟩]
    have hrec := ih (g.addEdge s t (restrictedData modes dist points s t mode))
      (fun r hr => hidx r (List.mem_cons_of_mem _ hr))
      (by rw [addEdge_nodes hu hv, hn])
      (addEdge_prop hPg (fun x y hxy => hP s t mode hs ht x y hxy))
    rcases hrec with ⟨g2, hg2, hn2, hmap, hP2⟩
    refine ⟨g2, hg2, hn2, ?_, hP2⟩
    have hpairs := addEdge_pairs (d := restrictedData modes dist points s t mode) hu hv
    rw [hmap, hpairs, List.map_cons]
    show dedupFrom (if g.hasEdge s t then g.edges.map (·.1) else g.edges.map (·.1) ++ [(s, t)])
        (rest.map (·.1)) =
      dedupFrom (g.edges.map (·.1)) ((s, t) :: rest.map (·.1))
    rw [dedupFrom_cons, ← hasEdge_map]

/-- A fixed-table entry with an out-of-range node index makes the
restricted builder raise (the Python `IndexError` on `points[start]`). -/
lemma initGraphGo_err (modes : ModeTable) (dist : Point → Point → ℚ) (points : List Point) :
    ∀ (nw : List ((Nat × Nat) × String)) (g : Graph),
      (∃ r ∈ nw, ¬(r.1.1 < points.length ∧ r.1.2 < points.length)) →
      initGraphGo modes dist points nw g = .error () := by
  intro nw
  induction nw with
  | nil =>
    intro g h
    rcases h with ⟨r, hr, _⟩
    simp at hr
  | cons entry rest ih =>
    rcases entry with ⟨p, mode⟩
    intro g h
    by_cases hp : p.1 < points.length ∧ p.2 < points.length
    · simp only [initGraphGo]
      rw [if_pos hp]
      apply ih
      rcases h with ⟨r, hr, hbad⟩
      rcases List.mem_cons.mp hr with rfl | hr2
      · exact absurd hp hbad
      · exact ⟨r, hr2, hbad⟩
    · simp only [initGraphGo]
      rw [if_neg hp]

/-- Main shape of a successfully built restricted graph. -/
lemma initialize_graph_ok (modes : ModeTable) (dist : Point → Point → ℚ)
    (network : List ((Nat × Nat) × String)) (points : List Point)
    (P : (Nat × Nat) × EdgeData → Prop)
    (hP : ∀ (s t : Nat) (mode : String), s < points.length → t < points.length →
      ∀ x y, pairEq (x, y) (s, t) = true →
        P ((x, y), restrictedData modes dist points s t mode))
    (hidx : ∀ r ∈ network, r.1.1 < points.length ∧ r.1.2 < points.length) :
    ∃ g, initialize_graph modes dist network points = .ok g ∧
      g.nodes = List.range points.length ∧
      g.edges.map (·.1) = dedupPairs (network.map (·.1)) ∧
      (∀ e ∈ g.edges, P e) := by
  unfold initialize_graph dedupPairs
  exact initGraphGo_ok modes dist points P hP network _ hidx rfl (by simp)

/-- A successfully built restricted graph is well formed. -/
lemma initialize_graph_wf {modes : ModeTable} {dist : Point → Point → ℚ}
    {network : List ((Nat × Nat) × String)} {points : List Point} {g : Graph}
    (_hok : initialize_graph modes dist network points = .ok g)
    (hn : g.nodes = List.range points.length)
    (hmap : g.edges.map (·.1) = dedupPairs (network.map (·.1)))
    (hidx : ∀ r ∈ network, r.1.1 < points.length ∧ r.1.2 < points.length) : g.wf := by
  refine ⟨hn ▸ List.nodup_range _, ?_, ?_⟩
  · intro e he
    have hmem : e.1 ∈ g.edges.map (·.1) := List.mem_map_of_mem _ he
    rw [hmap] at hmem
    rcases mem_dedupFrom _ _ _ hmem with h | h
    · simp at h
    · rw [List.mem_map] at h
      rcases h with ⟨r, hr, hre⟩
      have hbd := hidx r hr
      rw [hre] at hbd
      rw [hn]
      constructor <;> rw [List.mem_range]
      · exact hbd.1
      · exact hbd.2
  · have hpw : (g.edges.map (·.1)).Pairwise fun a b => pairEq a b = false := by
      rw [hmap]
      exact dedupFrom_pairwise _ _ List.Pairwise.nil
    rw [List.pairwise_map] at hpw
    exact hpw

/-! ## Lemmas and claim theorems on `_load_modes` -/

/-- C3.  A mode whose `speed` fails to parse as a non-negative number is
not always rejected: the regex `[+-]?([0-9]*[.])?[0-9]+` accepts the
negative value "-5" (first conjunct, the load succeeds), and when the
load does fail, the global registry has already been overwritten with
the new data, so the previously loaded valid registry is mutated (second
and third conjuncts). -/
theorem load_modes_negative_speed_and_mutation :
    (load_modes prevState
      [("bus", { speed := "-5", cost_per_km := "2", transfer_time_min := "5" })] []).2 = none ∧
    (load_modes prevState
      [("bus", { speed := "abc", cost_per_km := "2", transfer_time_min := "5" })]
      []).2 = some LoadError.modesError ∧
    (load_modes prevState
      [("bus", { speed := "abc", cost_per_km := "2", transfer_time_min := "5" })]
      []).1.modes_of_transport ≠ prevState.modes_of_transport := by
  decide

/-- C3 (amended).  Whenever some mode field fails the numeric-prefix
regex of `_load_modes` (which is what "fails to parse" means in the
source: negative numbers and numeric prefixes of garbage are accepted),
the load raises `ModesImportFailed`; but the module-level registry is
assigned before validation, so the post-state holds the new, invalid
registry rather than the previous one.  The network global is left
untouched on this path. -/
theorem load_modes_invalid_field (st : TPState) (nm : List (String × ModeFields))
    (nw : List (String × String))
    (h : ∃ p ∈ nm, matchesNum p.2.speed = false ∨ matchesNum p.2.cost_per_km = false ∨
      matchesNum p.2.transfer_time_min = false) :
    (load_modes st nm nw).2 = some LoadError.modesError ∧
    (load_modes st nm nw).1.modes_of_transport = nm ∧
    (load_modes st nm nw).1.transport_network = st.transport_network := by
  rcases h with ⟨p, hp, hbad⟩
  have hc : ¬ (checkModes nm = true) := by
    rw [checkModes, List.all_eq_true]
    intro hall
    have hph := hall p hp
    rcases hbad with hb | hb | hb <;> simp [hb] at hph
  unfold load_modes
  rw [if_neg hc]
  exact ⟨rfl, rfl, rfl⟩

/-- Closed instantiation of `load_modes_invalid_field`. -/
theorem load_modes_invalid_field_witness :
    (∃ p ∈ [("bus", ModeFields.mk "abc" "2" "5")], matchesNum p.2.speed = false ∨
      matchesNum p.2.cost_per_km = false ∨ matchesNum p.2.transfer_time_min = false) ∧
    ((load_modes prevState [("bus", ModeFields.mk "abc" "2" "5")] []).2 =
      some LoadError.modesError ∧
    (load_modes prevState [("bus", ModeFields.mk "abc" "2" "5")] []).1.modes_of_transport =
      [("bus", ModeFields.mk "abc" "2" "5")] ∧
    (load_modes prevState [("bus", ModeFields.mk "abc" "2" "5")] []).1.transport_network =
      prevState.transport_network) :=
  ⟨by decide, load_modes_invalid_field prevState _ _ (by decide)⟩

/-- C4.  With a valid mode registry, any fixed-network entry whose key
fails the strict `^\d \d{1,2}$` shape or whose value is not a loaded
mode name makes the whole load raise `ModesImportFailed`, and the
network global holds the empty table afterwards: no partial edge
assignment is produced, and no graph can be built from this load. -/
theorem load_modes_bad_network (st : TPState) (nm : List (String × ModeFields))
    (nw : List (String × String))
    (hm : ∀ p ∈ nm, matchesNum p.2.speed = true ∧ matchesNum p.2.cost_per_km = true ∧
      matchesNum p.2.transfer_time_min = true)
    (h : ∃ r ∈ nw, isRouteKey r.1 = false ∨ (nm.map (·.1)).contains r.2 = false) :
    (load_modes st nm nw).2 = some LoadError.routesError ∧
    (load_modes st nm nw).1.transport_network = [] := by
  have hc : checkModes nm = true := by
    rw [checkModes, List.all_eq_true]
    intro p hp
    rcases hm p hp with ⟨h1, h2, h3⟩
    simp [h1, h2, h3]
  rcases h with ⟨r, hr, hbad⟩
  have hcr : ¬ (checkRoutes (nm.map (·.1)) nw = true) := by
    rw [checkRoutes, List.all_eq_true]
    intro hall
    have hrh := hall r hr
    rw [Bool.and_eq_true] at hrh
    rcases hbad with hb | hb <;> rw [hb] at hrh <;> simp at hrh
  unfold load_modes
  rw [if_pos hc, if_neg hcr]
  exact ⟨rfl, rfl⟩

/-- Closed instantiation of `load_modes_bad_network`: an undefined mode
name in the fixed table. -/
theorem load_modes_bad_network_witness :
    (∀ p ∈ [("bus", ModeFields.mk "40" "2" "5")], matchesNum p.2.speed = true ∧
      matchesNum p.2.cost_per_km = true ∧ matchesNum p.2.transfer_time_min = true) ∧
    (∃ r ∈ [("0 1", "train")], isRouteKey r.1 = false ∨
      ([("bus", ModeFields.mk "40" "2" "5")].map (·.1)).contains r.2 = false) ∧
    ((load_modes prevState [("bus", ModeFields.mk "40" "2" "5")] [("0 1", "train")]).2 =
      some LoadError.routesError ∧
    (load_modes prevState [("bus", ModeFields.mk "40" "2" "5")]
      [("0 1", "train")]).1.transport_network = []) :=
  ⟨by decide, by decide,
    load_modes_bad_network prevState _ _ (by decide) (by decide)⟩

/-! ## Lemmas and claim theorems on the cache decorator -/

/-- C9.  The slot previously filled by a call under transport-mode data
`env = 1` is returned verbatim by a repeat call with the structurally
equal argument under changed data `env = 2`, although recomputing would
give a different result: the cache is not bypassed when the loaded data
changes. -/
theorem cache_not_bypassed_on_env_change :
    cachedCall (fun (_ : List Point) (env : ℚ) => env) 1 none [] = (1, some ([], 1)) ∧
    cachedCall (fun (_ : List Point) (env : ℚ) => env) 2 (some ([], 1)) [] =
      (1, some ([], 1)) ∧
    (fun (_ : List Point) (env : ℚ) => env) [] 2 = 2 ∧ (1 : ℚ) ≠ 2 := by
  refine ⟨rfl, ?_, rfl, by decide⟩
  simp [cachedCall]

/-- C9 (amended).  The decorator keeps a single slot keyed by structural
equality of the arguments alone: a repeat call with an equal argument
returns the cached result whatever the current module data is (first
part, in particular when the transport modes changed since the slot was
filled); a call with a different argument evicts the slot and
recomputes; an empty slot computes and fills. -/
theorem cache_single_slot_semantics {α β γ : Type} [DecidableEq α] :
    (∀ (f : α → γ → β) (env : γ) (a : α) (r : β),
      cachedCall f env (some (a, r)) a = (r, some (a, r))) ∧
    (∀ (f : α → γ → β) (env : γ) (a0 : α) (r0 : β) (a : α), a ≠ a0 →
      cachedCall f env (some (a0, r0)) a = (f a env, some (a, f a env))) ∧
    (∀ (f : α → γ → β) (env : γ) (a : α),
      cachedCall f env none a = (f a env, some (a, f a env))) := by
  refine ⟨fun f env a r => by simp [cachedCall], fun f env a0 r0 a hne => ?_, fun f env a => rfl⟩
  have : ¬ (a0 = a) := fun he => hne he.symm
  simp [cachedCall, this]

/-- Closed instantiation of `cache_single_slot_semantics`. -/
theorem cache_single_slot_semantics_witness :
    cachedCall (fun (n : Nat) (env : ℚ) => env + n) 1 (some (3, 4)) 3 = (4, some (3, 4)) ∧
    ((3 : Nat) ≠ 5 ∧
      cachedCall (fun (n : Nat) (env : ℚ) => env + n) 1 (some (5, 4)) 3 = (4, some (3, 4))) ∧
    cachedCall (fun (n : Nat) (env : ℚ) => env + n) 1 none 3 = (4, some (3, 4)) :=
  ⟨(cache_single_slot_semantics.1 _ 1 3 4),
    ⟨by decide, by rw [cache_single_slot_semantics.2.1 _ 1 5 4 3 (by decide)]; norm_num⟩,
    by rw [cache_single_slot_semantics.2.2 _ 1 3]; norm_num⟩

/-! ## Claim theorems on the graph builders -/

lemma calculate_travel_time_symm {modes : ModeTable} {dist : Point → Point → ℚ}
    (hsym : ∀ a b, dist a b = dist b a) (a b : Point) (m : String) :
    calculate_travel_time modes dist a b m = calculate_travel_time modes dist b a m := by
  unfold calculate_travel_time
  cases modes.lookup m <;> simp [hsym a b]

lemma taxi_symm : ∀ a b, taxi a b = taxi b a := by
  intro a b
  unfold taxi
  rw [abs_sub_comm, abs_sub_comm a.2]

lemma allPairs_small {n : Nat} (h : n < 2) : allPairs n = [] := by
  match n, h with
  | 0, _ => rfl
  | 1, _ => rfl

/-- C5.  Neither strategy rejects short coordinate lists with a
`GraphConstructionError` (no such error exists in the source): the
complete builder on zero or one point returns a graph with that many
nodes and no edges, and the restricted builder with an empty fixed
table succeeds on the empty coordinate list. -/
theorem build_graph_short_inputs_no_error :
    initialize_complete_graph modesQ taxi [] = { nodes := [], edges := [] } ∧
    initialize_complete_graph modesQ taxi [(1, 2)] = { nodes := [0], edges := [] } ∧
    initialize_graph modesQ taxi [] [] = .ok { nodes := [], edges := [] } := by
  decide

/-- C5 (amended).  Neither strategy checks the input length: the
complete builder always succeeds, producing one node per point and no
edges when the list is shorter than 2, and a two-node one-edge graph on
a list of length exactly 2; the restricted builder succeeds exactly when
every fixed-table index is in range (in particular always for the empty
table) and otherwise raises the Python `IndexError`, not a
`GraphConstructionError`. -/
theorem build_graph_short_inputs :
    (∀ (modes : ModeTable) (dist : Point → Point → ℚ) (points : List Point),
      points.length < 2 →
      (initialize_complete_graph modes dist points).nodes = List.range points.length ∧
      (initialize_complete_graph modes dist points).edges = []) ∧
    (∀ (modes : ModeTable) (dist : Point → Point → ℚ) (points : List Point),
      points.length = 2 →
      (initialize_complete_graph modes dist points).nodes.length = 2 ∧
      (initialize_complete_graph modes dist points).edges.length = 1) ∧
    (∀ (modes : ModeTable) (dist : Point → Point → ℚ) (network : List ((Nat × Nat) × String))
      (points : List Point),
      (∀ r ∈ network, r.1.1 < points.length ∧ r.1.2 < points.length) →
      ∃ g, initialize_graph modes dist network points = .ok g ∧
        g.nodes = List.range points.length) ∧
    (∀ (modes : ModeTable) (dist : Point → Point → ℚ) (network : List ((Nat × Nat) × String))
      (points : List Point),
      (∃ r ∈ network, ¬(r.1.1 < points.length ∧ r.1.2 < points.length)) →
      initialize_graph modes dist network points = .error ()) := by
  refine ⟨?_, ?_, ?_, ?_⟩
  · intro modes dist points hl
    rw [initialize_complete_graph_eq, allPairs_small hl]
    exact ⟨rfl, rfl⟩
  · intro modes dist points hl
    rw [initialize_complete_graph_eq]
    refine ⟨by simp [hl], ?_⟩
    rw [List.length_map, allPairs_length, hl]
  · intro modes dist network points hidx
    rcases initialize_graph_ok modes dist network points (fun _ => True)
      (fun _ _ _ _ _ _ _ _ => trivial) hidx with ⟨g, hok, hn, _, _⟩
    exact ⟨g, hok, hn⟩
  · intro modes dist network points hbad
    unfold initialize_graph
    exact initGraphGo_err modes dist points network _ hbad

/-- Closed instantiation of `build_graph_short_inputs`. -/
theorem build_graph_short_inputs_witness :
    ((initialize_complete_graph modesQ taxi [(1, 2)]).nodes = List.range 1 ∧
      (initialize_complete_graph modesQ taxi [(1, 2)]).edges = []) ∧
    ((initialize_complete_graph modesQ taxi [(0, 0), (1, 0)]).nodes.length = 2 ∧
      (initialize_complete_graph modesQ taxi [(0, 0), (1, 0)]).edges.length = 1) ∧
    (∃ g, initialize_graph modesQ taxi [((0, 1), "bus")] [(0, 0), (1, 0)] = .ok g ∧
      g.nodes = List.range 2) ∧
    initialize_graph modesQ taxi [((0, 2), "bus")] [(0, 0), (1, 0)] = .error () :=
  ⟨build_graph_short_inputs.1 modesQ taxi [(1, 2)] (by decide),
    build_graph_short_inputs.2.1 modesQ taxi [(0, 0), (1, 0)] rfl,
    build_graph_short_inputs.2.2.1 modesQ taxi [((0, 1), "bus")] [(0, 0), (1, 0)] (by decide),
    build_graph_short_inputs.2.2.2 modesQ taxi [((0, 2), "bus")] [(0, 0), (1, 0)] (by decide)⟩

/-- C6.  Both "1 2" and "2 1" are valid fixed-table entries (the load
accepts them and parses two entries), yet the undirected graph merges
them into one edge: the restricted builder can produce fewer edges than
there are valid entries in the table. -/
theorem restricted_edges_fewer_than_entries :
    (load_modes { modes_of_transport := [], transport_network := [] }
      [("bus", ModeFields.mk "40" "2" "5")] [("1 2", "bus"), ("2 1", "bus")]).2 = none ∧
    (load_modes { modes_of_transport := [], transport_network := [] }
      [("bus", ModeFields.mk "40" "2" "5")]
      [("1 2", "bus"), ("2 1", "bus")]).1.transport_network = [((1, 2), "bus"), ((2, 1), "bus")] ∧
    (initialize_graph modesQ taxi [((1, 2), "bus"), ((2, 1), "bus")] pts3).map
      (fun g => g.edges.length) = .ok 1 := by
  decide

/-- C6 (amended).  On N points the complete strategy yields exactly
N*(N-1)/2 edges, each carrying the mode minimising the travel time of
its pair over all loaded modes with the first-loaded mode as the stable
tie-break, and that minimal time as weight; the restricted strategy
yields one edge per distinct unordered pair among the fixed-table
entries (entries naming the same unordered pair, such as (i,j) and
(j,i), collapse into a single undirected edge). -/
theorem build_graph_edge_counts :
    (∀ (modes : ModeTable) (dist : Point → Point → ℚ) (points : List Point), modes ≠ [] →
      (initialize_complete_graph modes dist points).edges.length =
        points.length * (points.length - 1) / 2 ∧
      ∀ e ∈ (initialize_complete_graph modes dist points).edges,
        e.2.mode_of_transport ∈ modes.map (·.1) ∧
        (∀ x ∈ modes.map (·.1),
          ttFun modes dist points e.1.1 e.1.2 e.2.mode_of_transport ≤
            ttFun modes dist points e.1.1 e.1.2 x) ∧
        (∃ pre post, modes.map (·.1) = pre ++ e.2.mode_of_transport :: post ∧
          ∀ x ∈ pre, ttFun modes dist points e.1.1 e.1.2 e.2.mode_of_transport <
            ttFun modes dist points e.1.1 e.1.2 x) ∧
        e.2.weight = ttFun modes dist points e.1.1 e.1.2 e.2.mode_of_transport) ∧
    (∀ (modes : ModeTable) (dist : Point → Point → ℚ) (network : List ((Nat × Nat) × String))
      (points : List Point),
      (∀ r ∈ network, r.1.1 < points.length ∧ r.1.2 < points.length) →
      ∃ g, initialize_graph modes dist network points = .ok g ∧
        g.edges.length = (dedupPairs (network.map (·.1))).length) := by
  constructor
  · intro modes dist points hm
    constructor
    · rw [initialize_complete_graph_eq]
      show ((allPairs points.length).map _).length = _
      rw [List.length_map, allPairs_length]
    · intro e he
      rcases complete_edge_data hm e he with ⟨_, _, h3, h4, h5, h6, _⟩
      exact ⟨h3, h4, h5, h6⟩
  · intro modes dist network points hidx
    rcases initialize_graph_ok modes dist network points (fun _ => True)
      (fun _ _ _ _ _ _ _ _ => trivial) hidx with ⟨g, hok, _, hmap, _⟩
    refine ⟨g, hok, ?_⟩
    rw [← hmap, List.length_map]

/-- Closed instantiation of `build_graph_edge_counts`. -/
theorem build_graph_edge_counts_witness :
    ((initialize_complete_graph modesQ taxi pts3).edges.length = 3 * (3 - 1) / 2 ∧
      ∀ e ∈ (initialize_complete_graph modesQ taxi pts3).edges,
        e.2.mode_of_transport ∈ modesQ.map (·.1) ∧
        (∀ x ∈ modesQ.map (·.1),
          ttFun modesQ taxi pts3 e.1.1 e.1.2 e.2.mode_of_transport ≤
            ttFun modesQ taxi pts3 e.1.1 e.1.2 x) ∧
        (∃ pre post, modesQ.map (·.1) = pre ++ e.2.mode_of_transport :: post ∧
          ∀ x ∈ pre, ttFun modesQ taxi pts3 e.1.1 e.1.2 e.2.mode_of_transport <
            ttFun modesQ taxi pts3 e.1.1 e.1.2 x) ∧
        e.2.weight = ttFun modesQ taxi pts3 e.1.1 e.1.2 e.2.mode_of_transport) ∧
    (∃ g, initialize_graph modesQ taxi [((1, 2), "bus"), ((2, 1), "bus")] pts3 = .ok g ∧
      g.edges.length = (dedupPairs [(1, 2), (2, 1)]).length) := by
  have h1 := build_graph_edge_counts.1 modesQ taxi pts3 (by decide)
  have h2 := build_graph_edge_counts.2 modesQ taxi [((1, 2), "bus"), ((2, 1), "bus")] pts3
    (by decide)
  exact ⟨⟨h1.1, h1.2⟩, h2⟩

/-- C7.  Travel time is the single formula
`dist(a,b) / speed * 60 + transfer_time_min` of `_calculate_travel_time`
(first part), and both builders store exactly that number, evaluated on
the lat/lon-swapped stored coordinates of the edge endpoints under the
edge mode, as the edge weight (second and third parts; the third
assumes the distance function symmetric, as the geodesic distance
is). -/
theorem travel_time_formula :
    (∀ (modes : ModeTable) (dist : Point → Point → ℚ) (a b : Point) (m : String)
      (rec : ModeRec), modes.lookup m = some rec →
      calculate_travel_time modes dist a b m = dist a b / rec.speed * 60 + rec.transfer_time_min) ∧
    (∀ (modes : ModeTable) (dist : Point → Point → ℚ) (points : List Point), modes ≠ [] →
      ∀ e ∈ (initialize_complete_graph modes dist points).edges,
        e.2.weight = calculate_travel_time modes dist (swapPt (points.getD e.1.1 (0, 0)))
          (swapPt (points.getD e.1.2 (0, 0))) e.2.mode_of_transport ∧
        ∃ rec, modes.lookup e.2.mode_of_transport = some rec) ∧
    (∀ (modes : ModeTable) (dist : Point → Point → ℚ)
      (network : List ((Nat × Nat) × String)) (points : List Point),
      (∀ a b, dist a b = dist b a) →
      (∀ r ∈ network, r.1.1 < points.length ∧ r.1.2 < points.length) →
      ∃ g, initialize_graph modes dist network points = .ok g ∧
        ∀ e ∈ g.edges,
          e.2.weight = calculate_travel_time modes dist (swapPt (points.getD e.1.1 (0, 0)))
            (swapPt (points.getD e.1.2 (0, 0))) e.2.mode_of_transport) := by
  refine ⟨?_, ?_, ?_⟩
  · intro modes dist a b m rec hrec
    unfold calculate_travel_time
    rw [hrec]
  · intro modes dist points hm e he
    rcases complete_edge_data hm e he with ⟨_, _, h3, _, _, h6, _⟩
    exact ⟨h6, lookup_of_mem_names h3⟩
  · intro modes dist network points hsym hidx
    have hPd : ∀ (s t : Nat) (mode : String), s < points.length → t < points.length →
        ∀ x y, pairEq (x, y) (s, t) = true →
          (fun e : (Nat × Nat) × EdgeData => e.2.weight = calculate_travel_time modes dist
            (swapPt (points.getD e.1.1 (0, 0))) (swapPt (points.getD e.1.2 (0, 0)))
            e.2.mode_of_transport) ((x, y), restrictedData modes dist points s t mode) := by
      intro s t mode hs ht x y hxy
      rw [pairEq_iff] at hxy
      rcases hxy with ⟨hx, hy⟩ | ⟨hx, hy⟩
      · have hx2 : x = s := hx
        have hy2 : y = t := hy
        subst hx2
        subst hy2
        rfl
      · have hx2 : x = t := hx
        have hy2 : y = s := hy
        subst hx2
        subst hy2
        exact calculate_travel_time_symm hsym _ _ _
    rcases initialize_graph_ok modes dist network points
      (fun e : (Nat × Nat) × EdgeData => e.2.weight = calculate_travel_time modes dist
        (swapPt (points.getD e.1.1 (0, 0))) (swapPt (points.getD e.1.2 (0, 0)))
        e.2.mode_of_transport) hPd hidx with ⟨g, hok, _, _, hP⟩
    exact ⟨g, hok, hP⟩

/-- Closed instantiation of `travel_time_formula`. -/
theorem travel_time_formula_witness :
    calculate_travel_time modesQ taxi (0, 0) (1, 0) "bus" =
      taxi (0, 0) (1, 0) / (40 : ℚ) * 60 + 5 ∧
    (∀ e ∈ (initialize_complete_graph modesQ taxi pts3).edges,
      e.2.weight = calculate_travel_time modesQ taxi (swapPt (pts3.getD e.1.1 (0, 0)))
        (swapPt (pts3.getD e.1.2 (0, 0))) e.2.mode_of_transport ∧
      ∃ rec, modesQ.lookup e.2.mode_of_transport = some rec) ∧
    (∃ g, initialize_graph modesQ taxi [((0, 1), "bus")] pts3 = .ok g ∧
      ∀ e ∈ g.edges,
        e.2.weight = calculate_travel_time modesQ taxi (swapPt (pts3.getD e.1.1 (0, 0)))
          (swapPt (pts3.getD e.1.2 (0, 0))) e.2.mode_of_transport) := by
  refine ⟨?_, ?_, ?_⟩
  · exact travel_time_formula.1 modesQ taxi (0, 0) (1, 0) "bus"
      { speed := 40, cost_per_km := 2, transfer_time_min := 5 } (by decide)
  · exact travel_time_formula.2.1 modesQ taxi pts3 (by decide)
  · exact travel_time_formula.2.2 modesQ taxi [((0, 1), "bus")] pts3 taxi_symm (by decide)

/-! ## Lemmas on the exact solver -/

lemma oLE_refl (o : Option ℚ) : oLE o o := by
  cases o with
  | none => trivial
  | some b => exact ⟨b, rfl, le_refl b⟩

lemma oLE_trans {a b c : Option ℚ} (h1 : oLE a b) (h2 : oLE b c) : oLE a c := by
  cases c with
  | none => trivial
  | some x =>
    rcases h2 with ⟨cb, hcb, hbx⟩
    rw [hcb] at h1
    rcases h1 with ⟨ca, hca, hab⟩
    exact ⟨ca, hca, le_trans hab hbx⟩

lemma oLE_le {a b : Option ℚ} {x y : ℚ} (h : oLE a b) (hb : b = some x) (hx : x ≤ y) :
    ∃ c, a = some c ∧ c ≤ y := by
  rw [hb] at h
  rcases h with ⟨c, hc, hcx⟩
  exact ⟨c, hc, le_trans hcx hx⟩

lemma neighbors_decode {g : Graph} {u v : Nat} {w : ℚ} (h : (v, w) ∈ g.neighbors u) :
    ∃ e ∈ g.edges, pairEq e.1 (u, v) = true ∧ e.2.weight = w ∧ (v = e.1.1 ∨ v = e.1.2) := by
  unfold Graph.neighbors at h
  rw [List.mem_filterMap] at h
  rcases h with ⟨e, he, hfe⟩
  by_cases h1 : e.1.1 = u
  · rw [if_pos h1] at hfe
    injection hfe with hp
    have hv : e.1.2 = v := congrArg Prod.fst hp
    have hw : e.2.weight = w := congrArg Prod.snd hp
    refine ⟨e, he, ?_, hw, Or.inr hv.symm⟩
    rw [pairEq_iff]
    exact Or.inl ⟨h1, hv⟩
  · rw [if_neg h1] at hfe
    by_cases h2 : e.1.2 = u
    · rw [if_pos h2] at hfe
      injection hfe with hp
      have hv : e.1.1 = v := congrArg Prod.fst hp
      have hw : e.2.weight = w := congrArg Prod.snd hp
      refine ⟨e, he, ?_, hw, Or.inl hv.symm⟩
      rw [pairEq_iff]
      exact Or.inr ⟨hv, h2⟩
    · rw [if_neg h2] at hfe
      exact absurd hfe (by simp)

lemma neighbors_hasEdge {g : Graph} {u v : Nat} {w : ℚ} (h : (v, w) ∈ g.neighbors u) :
    g.hasEdge u v = true := by
  rcases neighbors_decode h with ⟨e, he, hpe, _, _⟩
  unfold Graph.hasEdge
  rw [List.any_eq_true]
  exact ⟨e, he, hpe⟩

lemma neighbors_mem_nodes {g : Graph} (hwf : g.wf) {u v : Nat} {w : ℚ}
    (h : (v, w) ∈ g.neighbors u) : v ∈ g.nodes := by
  rcases neighbors_decode h with ⟨e, he, _, _, hv⟩
  rcases hwf.2.1 e he with ⟨h1, h2⟩
  rcases hv with rfl | rfl
  · exact h1
  · exact h2

lemma hasEdge_mem_nodes {g : Graph} (hwf : g.wf) {u v : Nat} (h : g.hasEdge u v = true) :
    v ∈ g.nodes := by
  unfold Graph.hasEdge at h
  rw [List.any_eq_true] at h
  rcases h with ⟨e, he, hpe⟩
  rw [pairEq_iff] at hpe
  rcases hwf.2.1 e he with ⟨h1, h2⟩
  rcases hpe with ⟨_, hb⟩ | ⟨hb, _⟩
  · have hb2 : e.1.2 = v := hb
    rw [← hb2]
    exact h2
  · have hb2 : e.1.1 = v := hb
    rw [← hb2]
    exact h1

lemma wf_edge_unique {g : Graph} (hwf : g.wf) {e1 e2 : (Nat × Nat) × EdgeData}
    (h1 : e1 ∈ g.edges) (h2 : e2 ∈ g.edges) {p : Nat × Nat}
    (hp1 : pairEq e1.1 p = true) (hp2 : pairEq e2.1 p = true) : e1 = e2 := by
  by_contra hne
  have hsymm : Symmetric (fun a b : (Nat × Nat) × EdgeData => pairEq a.1 b.1 = false) := by
    intro a b h
    rw [pairEq_comm]
    exact h
  have hfalse := (hwf.2.2).forall hsymm h1 h2 hne
  have htrue : pairEq e1.1 e2.1 = true := pairEq_trans hp1 hp2
  rw [htrue] at hfalse
  exact Bool.noConfusion hfalse

lemma neighbors_weight {g : Graph} (hwf : g.wf) {u v : Nat} {w : ℚ}
    (h : (v, w) ∈ g.neighbors u) : w = edgeWeight g u v := by
  rcases neighbors_decode h with ⟨e, he, hpe, hw, _⟩
  have hsome : (g.edges.find? fun e => pairEq e.1 (u, v)).isSome = true := by
    rw [List.find?_isSome]
    exact ⟨e, he, hpe⟩
  rcases Option.isSome_iff_exists.mp hsome with ⟨e0, hf⟩
  have he0 : e0 ∈ g.edges := List.mem_of_find?_eq_some hf
  have hpe0 : pairEq e0.1 (u, v) = true :=
    List.find?_some (p := fun e : (Nat × Nat) × EdgeData => pairEq e.1 (u, v)) hf
  have hee : e = e0 := wf_edge_unique hwf he he0 hpe hpe0
  unfold edgeWeight
  rw [hf, ← hee]
  exact hw.symm

lemma hasEdge_neighbors {g : Graph} {u v : Nat} (h : g.hasEdge u v = true) :
    ∃ w, (v, w) ∈ g.neighbors u := by
  unfold Graph.hasEdge at h
  rw [List.any_eq_true] at h
  rcases h with ⟨e, he, hpe⟩
  rw [pairEq_iff] at hpe
  unfold Graph.neighbors
  refine ⟨e.2.weight, List.mem_filterMap.mpr ⟨e, he, ?_⟩⟩
  rcases hpe with ⟨h1, h2⟩ | ⟨h1, h2⟩
  · rw [if_pos h1, h2]
  · by_cases hq : e.1.1 = u
    · rw [if_pos hq]
      have hv : e.1.2 = v := by omega
      rw [hv]
    · rw [if_neg hq, if_pos h2, h1]

lemma routeCost_concat (g : Graph) :
    ∀ (l : List Nat) (last v : Nat), l.getLast? = some last →
      routeCost g (l ++ [v]) = routeCost g l + edgeWeight g last v := by
  intro l
  induction l with
  | nil =>
    intro last v h
    simp at h
  | cons x rest ih =>
    intro last v h
    cases rest with
    | nil =>
      rw [List.getLast?_singleton] at h
      injection h with h
      subst h
      show edgeWeight g x v + routeCost g [v] = routeCost g [x] + edgeWeight g x v
      show edgeWeight g x v + 0 = 0 + edgeWeight g x v
      rw [add_zero, zero_add]
    | cons y rest2 =>
      have hl : (y :: rest2 : List Nat).getLast? = some last := by
        rw [← List.getLast?_cons_cons]
        exact h
      have hstep := ih last v hl
      show edgeWeight g x y + routeCost g ((y :: rest2) ++ [v]) =
        (edgeWeight g x y + routeCost g (y :: rest2)) + edgeWeight g last v
      rw [hstep, add_assoc]

lemma isChain_concat {g : Graph} {l : List Nat} {last v : Nat} (hc : isChain g l)
    (hl : l.getLast? = some last) (he : g.hasEdge last v = true) : isChain g (l ++ [v]) := by
  unfold isChain at hc ⊢
  rw [List.chain'_append]
  refine ⟨hc, List.chain'_singleton _, ?_⟩
  intro x hx y hy
  rw [Option.mem_def, hl] at hx
  injection hx with hx
  rw [Option.mem_def] at hy
  have hy2 : y = v := by
    have : ([v] : List Nat).head? = some v := rfl
    rw [this] at hy
    injection hy with hy
    exact hy.symm
  rw [← hx, hy2]
  exact he

lemma completion_eq_self {g : Graph} {base r : List Nat} (h : Completion g base r)
    (hlen : base.length = g.nodes.length) : r = base := by
  refine (h.1.eq_of_length ?_).symm
  rw [hlen, h.2.2.2.1]

lemma completion_step {g : Graph} {base r : List Nat} {node : Nat}
    (h : Completion g base r) (hlast : base.getLast? = some node)
    (hlen : base.length < r.length) :
    ∃ next rest, r = base ++ next :: rest ∧ g.hasEdge node next = true ∧ next ∉ base ∧
      Completion g (base ++ [next]) r := by
  rcases h1 : h.1 with ⟨t, ht⟩
  cases t with
  | nil =>
    rw [List.append_nil] at ht
    rw [← ht] at hlen
    omega
  | cons next rest =>
    refine ⟨next, rest, ht.symm, ?_, ?_, ?_⟩
    · have hchain := h.2.2.2.2
      unfold isChain at hchain
      rw [← ht, List.chain'_append] at hchain
      refine hchain.2.2 node ?_ next ?_
      · rw [Option.mem_def, hlast]
      · rw [Option.mem_def]
        rfl
    · have hnd := h.2.1
      rw [← ht, List.nodup_append] at hnd
      intro hmem
      exact hnd.2.2 hmem (List.mem_cons_self _ _)
    · refine ⟨⟨rest, ?_⟩, h.2.1, h.2.2.1, h.2.2.2.1, h.2.2.2.2⟩
      rw [List.append_assoc]
      exact ht

lemma completion_extend_mono {g : Graph} {base : List Nat} {next : Nat} {r : List Nat}
    (h : Completion g (base ++ [next]) r) : Completion g base r :=
  ⟨(List.prefix_append base [next]).trans h.1, h.2⟩

lemma completion_covers {g : Graph} {base r : List Nat} (h : Completion g base r) :
    ∀ v ∈ g.nodes, v ∈ r := by
  have hsp := List.subperm_of_subset h.2.1 fun x hx => h.2.2.1 x hx
  have hperm := hsp.perm_of_length_le (by rw [h.2.2.2.1])
  intro v hv
  exact hperm.mem_iff.mpr hv

/-- The best-route update at a completed route satisfies the call
specification: replacement only on strictly lower cost. -/
lemma stepBest_spec {g : Graph} {route : List Nat} {cost : ℚ} {best : List Nat × Option ℚ}
    (hnd : route.Nodup) (hsub : ∀ x ∈ route, x ∈ g.nodes) (hchain : isChain g route)
    (hlen : route.length = g.nodes.length) (hcost : cost = routeCost g route) :
    ResSpec g route best (stepBest best (route, cost)) := by
  have hself : Completion g route route := ⟨List.prefix_refl _, hnd, hsub, hlen, hchain⟩
  unfold stepBest
  cases hb : best.2 with
  | none =>
    rw [show ltB (route, cost).2 (none : Option ℚ) = true from rfl, if_pos rfl]
    refine ⟨Or.inr ⟨route, hself, by rw [hcost]⟩, by rw [hb]; trivial, ?_⟩
    intro r hr
    have hre : r = route := completion_eq_self hr hlen
    subst hre
    exact ⟨cost, rfl, le_of_eq hcost⟩
  | some b =>
    rw [show ltB (route, cost).2 (some b) = decide (cost < b) from rfl]
    by_cases hlt : cost < b
    · rw [if_pos (decide_eq_true hlt)]
      refine ⟨Or.inr ⟨route, hself, by rw [hcost]⟩, by rw [hb]; exact ⟨cost, rfl, le_of_lt hlt⟩, ?_⟩
      intro r hr
      have hre : r = route := completion_eq_self hr hlen
      subst hre
      exact ⟨cost, rfl, le_of_eq hcost⟩
    · rw [if_neg (by simpa using hlt)]
      refine ⟨Or.inl rfl, oLE_refl _, ?_⟩
      intro r hr
      have hre : r = route := completion_eq_self hr hlen
      subst hre
      refine ⟨b, hb, ?_⟩
      rw [← hcost]
      exact le_of_not_lt hlt

/-- The neighbor loop satisfies the loop specification, given that the
recursive callee satisfies the call specification on each extended
route. -/
lemma dfs_loop_spec (g : Graph)
    (f : Nat → List Nat × ℚ → List Nat × Option ℚ → Except Unit (List Nat × Option ℚ))
    (route : List Nat) (cost : ℚ) :
    ∀ (L : List (Nat × ℚ)) (best : List Nat × Option ℚ),
      (∀ next w b, (next, w) ∈ L → next ∉ route →
        ∃ res, f next (route ++ [next], cost + w) b = .ok res ∧
          ResSpec g (route ++ [next]) b res) →
      ∃ res, dfs_loop f L (route, cost) best = .ok res ∧ ResSpecVia g route L best res := by
  intro L
  induction L with
  | nil =>
    intro best _
    refine ⟨best, rfl, Or.inl rfl, oLE_refl _, ?_⟩
    intro r hr
    rcases hr with ⟨_, next, w, rest, hmem, _, _⟩
    simp at hmem
  | cons nw L ih =>
    rcases nw with ⟨next, w⟩
    intro best hf
    by_cases hmem : next ∈ route
    · have heq : dfs_loop f ((next, w) :: L) (route, cost) best =
          dfs_loop f L (route, cost) best := by
        show (if next ∈ route then dfs_loop f L (route, cost) best
          else match f next (route ++ [next], cost + w) best with
            | .ok best1 => dfs_loop f L (route, cost) best1
            | .error e => .error e) = _
        rw [if_pos hmem]
      rcases ih best (fun n2 w2 b hm hn => hf n2 w2 b (List.mem_cons_of_mem _ hm) hn) with
        ⟨res, hres, hA, hB, hC⟩
      refine ⟨res, by rw [heq, hres], ?_, hB, ?_⟩
      · rcases hA with h | ⟨r, ⟨hcomp, n2, w2, rest2, hm2, hn2, he2⟩, hre⟩
        · exact Or.inl h
        · exact Or.inr ⟨r, ⟨hcomp, n2, w2, rest2, List.mem_cons_of_mem _ hm2, hn2, he2⟩, hre⟩
      · intro r hr
        rcases hr with ⟨hcomp, n2, w2, rest2, hm2, hn2, he2⟩
        rcases List.mem_cons.mp hm2 with hhd | htl
        · injection hhd with hh1 hh2
          rw [hh1] at hn2
          exact absurd hmem hn2
        · exact hC r ⟨hcomp, n2, w2, rest2, htl, hn2, he2⟩
    · rcases hf next w best (List.mem_cons_self _ _) hmem with ⟨res1, hres1, hsA, hsB, hsC⟩
      have heq : dfs_loop f ((next, w) :: L) (route, cost) best =
          dfs_loop f L (route, cost) res1 := by
        show (if next ∈ route then dfs_loop f L (route, cost) best
          else match f next (route ++ [next], cost + w) best with
            | .ok best1 => dfs_loop f L (route, cost) best1
            | .error e => .error e) = _
        rw [if_neg hmem, hres1]
      rcases ih res1 (fun n2 w2 b hm hn => hf n2 w2 b (List.mem_cons_of_mem _ hm) hn) with
        ⟨res2, hres2, hvA, hvB, hvC⟩
      refine ⟨res2, by rw [heq, hres2], ?_, oLE_trans hvB hsB, ?_⟩
      · rcases hvA with h2 | ⟨r, ⟨hcomp, n2, w2, rest2, hm2, hn2, he2⟩, hre⟩
        · rw [h2]
          rcases hsA with h1 | ⟨r, hcomp1, hre1⟩
          · exact Or.inl h1
          · refine Or.inr ⟨r, ⟨completion_extend_mono hcomp1, next, w, ?_⟩, hre1⟩
            rcases hcomp1.1 with ⟨t, ht⟩
            refine ⟨t, List.mem_cons_self _ _, hmem, ?_⟩
            rw [← ht, List.append_assoc]
            rfl
        · exact Or.inr ⟨r, ⟨hcomp, n2, w2, rest2, List.mem_cons_of_mem _ hm2, hn2, he2⟩, hre⟩
      · intro r hr
        rcases hr with ⟨hcomp, n2, w2, rest2, hm2, hn2, he2⟩
        rcases List.mem_cons.mp hm2 with hhd | htl
        · injection hhd with hh1 hh2
          rw [hh1] at he2 hn2
          have hcomp2 : Completion g (route ++ [next]) r := by
            refine ⟨⟨rest2, ?_⟩, hcomp.2.1, hcomp.2.2.1, hcomp.2.2.2.1, hcomp.2.2.2.2⟩
            rw [List.append_assoc, he2]
            rfl
          rcases hsC r hcomp2 with ⟨c, hc, hcle⟩
          exact oLE_le hvB hc hcle
        · exact hvC r ⟨hcomp, n2, w2, rest2, htl, hn2, he2⟩

/-- Every reachable call of the source recursion returns without error
and satisfies the call specification, given enough fuel. -/
lemma recurse_tree_spec (g : Graph) (hwf : g.wf) :
    ∀ (fuel : Nat) (route : List Nat) (cost : ℚ) (best : List Nat × Option ℚ) (node : Nat),
      route.getLast? = some node → route.Nodup → (∀ x ∈ route, x ∈ g.nodes) →
      isChain g route → cost = routeCost g route →
      g.nodes.length - route.length ≤ fuel →
      ∃ res, recurse_tree g fuel node (route, cost) best = .ok res ∧ ResSpec g route best res := by
  intro fuel
  induction fuel with
  | zero =>
    intro route cost best node hlast hnd hsub hchain hcost hfuel
    have hle : route.length ≤ g.nodes.length := (List.subperm_of_subset hnd hsub).length_le
    have hlen : route.length = g.nodes.length := by omega
    refine ⟨stepBest best (route, cost), ?_, stepBest_spec hnd hsub hchain hlen hcost⟩
    unfold recurse_tree
    rw [if_pos hlen]
  | succ fuel2 ih =>
    intro route cost best node hlast hnd hsub hchain hcost hfuel
    by_cases hlen : route.length = g.nodes.length
    · refine ⟨stepBest best (route, cost), ?_, stepBest_spec hnd hsub hchain hlen hcost⟩
      unfold recurse_tree
      rw [if_pos hlen]
    · have hnode : node ∈ g.nodes :=
        hsub node (List.mem_of_mem_getLast? (Option.mem_def.mpr hlast))
      have hlt : route.length < g.nodes.length :=
        lt_of_le_of_ne (List.subperm_of_subset hnd hsub).length_le hlen
      have heq : recurse_tree g (fuel2 + 1) node (route, cost) best =
          dfs_loop (fun n r b => recurse_tree g fuel2 n r b) (g.neighbors node)
            (route, cost) best := by
        conv_lhs => unfold recurse_tree
        rw [if_neg hlen, if_pos hnode]
      have hf : ∀ next w b, (next, w) ∈ g.neighbors node → next ∉ route →
          ∃ res, recurse_tree g fuel2 next (route ++ [next], cost + w) b = .ok res ∧
            ResSpec g (route ++ [next]) b res := by
        intro next w b hmem hnin
        have hE : g.hasEdge node next = true := neighbors_hasEdge hmem
        have hw : w = edgeWeight g node next := neighbors_weight hwf hmem
        have hnn : next ∈ g.nodes := neighbors_mem_nodes hwf hmem
        refine ih (route ++ [next]) (cost + w) b next (List.getLast?_concat _) ?_ ?_ ?_ ?_ ?_
        · rw [List.nodup_append]
          refine ⟨hnd, List.nodup_singleton _, ?_⟩
          intro a ha hb
          rw [List.mem_singleton] at hb
          subst hb
          exact hnin ha
        · intro x hx
          rcases List.mem_append.mp hx with h | h
          · exact hsub x h
          · rw [List.mem_singleton] at h
            subst h
            exact hnn
        · exact isChain_concat hchain hlast hE
        · rw [routeCost_concat g route node next hlast, hcost, hw]
        · rw [List.length_append, List.length_singleton]
          omega
      rcases dfs_loop_spec g (fun n r b => recurse_tree g fuel2 n r b) route cost
        (g.neighbors node) best hf with ⟨res, hres, hvA, hvB, hvC⟩
      have hto : ∀ r, Completion g route r → CompletionVia g route (g.neighbors node) r := by
        intro r hr
        have hlen2 : route.length < r.length := by
          rw [hr.2.2.2.1]
          exact hlt
        rcases completion_step hr hlast hlen2 with ⟨next, rest, heqr, hE, hnin, _⟩
        rcases hasEdge_neighbors hE with ⟨w, hw⟩
        exact ⟨hr, next, w, rest, hw, hnin, heqr⟩
      refine ⟨res, by rw [heq, hres], ?_, hvB, ?_⟩
      · rcases hvA with h | ⟨r, hrc, hre⟩
        · exact Or.inl h
        · exact Or.inr ⟨r, hrc.1, hre⟩
      · intro r hr
        exact hvC r (hto r hr)

/-- The top-level DFS call of `_dfs_tsp` on a well-formed graph that
contains node 0 returns without error and satisfies the call
specification relative to the initial best `([0], inf)`. -/
lemma dfs_tsp_ok (g : Graph) (hwf : g.wf) (h0 : 0 ∈ g.nodes) :
    ∃ res, recurse_tree g g.nodes.length 0 ([0], 0) ([0], none) = .ok res ∧
      ResSpec g [0] ([0], none) res := by
  refine recurse_tree_spec g hwf g.nodes.length [0] 0 ([0], none) 0 rfl
    (List.nodup_singleton _) ?_ (List.chain'_singleton _) rfl ?_
  · intro x hx
    rw [List.mem_singleton] at hx
    subst hx
    exact h0
  · omega

/-! ## Claim theorems on the exact solver -/

/-- C1.  On every well-formed graph containing node 0 that admits at
least one complete route from node 0, the solver returns a route that
starts at 0, has no duplicates, omits no node, and is of minimal total
weight among all valid complete permutations; the tracked best starts
at `([0], inf)` and is overwritten exactly on strictly lower completed
cost. -/
theorem dfs_tsp_optimal (g : Graph) (hwf : g.wf) (hex : ∃ r, validRoute g r) :
    (∃ route, dfs_tsp g = .ok route ∧ route.head? = some 0 ∧ route.Nodup ∧
      (∀ v ∈ g.nodes, v ∈ route) ∧ validRoute g route ∧
      ∀ r, validRoute g r → routeCost g route ≤ routeCost g r) ∧
    (∀ (b : List Nat × Option ℚ) (rt : List Nat × ℚ), ltB rt.2 b.2 = false → stepBest b rt = b) ∧
    (∀ (b : List Nat × Option ℚ) (rt : List Nat × ℚ), ltB rt.2 b.2 = true →
      stepBest b rt = (rt.1, some rt.2)) ∧
    (∀ c : ℚ, ltB c none = true) := by
  have h0 : 0 ∈ g.nodes := by
    rcases hex with ⟨r0, hr0⟩
    rcases hr0.1 with ⟨t, ht⟩
    refine hr0.2.2.1 0 ?_
    rw [← ht]
    exact List.mem_append.mpr (Or.inl (List.mem_singleton.mpr rfl))
  refine ⟨?_, ?_, ?_, fun c => rfl⟩
  · rcases dfs_tsp_ok g hwf h0 with ⟨res, hres, hA, _, hC⟩
    rcases hex with ⟨r0, hr0⟩
    rcases hC r0 hr0 with ⟨c, hc, _⟩
    rcases hA with h | ⟨r, hrc, hre⟩
    · rw [h] at hc
      exact absurd hc (by simp)
    · refine ⟨r, ?_, ?_, hrc.2.1, completion_covers hrc, hrc, ?_⟩
      · unfold dfs_tsp
        rw [hres, hre]
      · rcases hrc.1 with ⟨t, ht⟩
        rw [← ht]
        rfl
      · intro r2 hr2
        rcases hC r2 hr2 with ⟨c2, hc2, hle2⟩
        rw [hre] at hc2
        injection hc2 with hc2
        rw [hc2]
        exact hle2
  · intro b rt h
    unfold stepBest
    rw [h]
    rfl
  · intro b rt h
    unfold stepBest
    rw [h]
    rfl

/-- Closed instantiation of `dfs_tsp_optimal` on the complete graph of
three concrete points. -/
theorem dfs_tsp_optimal_witness :
    (∃ route, dfs_tsp (initialize_complete_graph modesQ taxi pts3) = .ok route ∧
      route.head? = some 0 ∧ route.Nodup ∧
      (∀ v ∈ (initialize_complete_graph modesQ taxi pts3).nodes, v ∈ route) ∧
      validRoute (initialize_complete_graph modesQ taxi pts3) route ∧
      ∀ r, validRoute (initialize_complete_graph modesQ taxi pts3) r →
        routeCost (initialize_complete_graph modesQ taxi pts3) route ≤
          routeCost (initialize_complete_graph modesQ taxi pts3) r) ∧
    (∀ (b : List Nat × Option ℚ) (rt : List Nat × ℚ), ltB rt.2 b.2 = false → stepBest b rt = b) ∧
    (∀ (b : List Nat × Option ℚ) (rt : List Nat × ℚ), ltB rt.2 b.2 = true →
      stepBest b rt = (rt.1, some rt.2)) ∧
    (∀ c : ℚ, ltB c none = true) :=
  dfs_tsp_optimal (initialize_complete_graph modesQ taxi pts3)
    (initialize_complete_graph_wf modesQ taxi pts3)
    ⟨[0, 1, 2], by with_unfolding_all decide⟩

/-- The disconnected fixture admits no valid complete route from
node 0: node 2 has no incident edge. -/
lemma gDisc_no_route : ¬ ∃ r, validRoute gDisc r := by
  rintro ⟨r, hpre, hnd, hsub, hlen, hchain⟩
  have hlen3 : r.length = 3 := hlen
  rcases r with _ | ⟨a, _ | ⟨b, _ | ⟨c, rest⟩⟩⟩
  · simp at hlen3
  · simp at hlen3
  · simp at hlen3
  · have hrest : rest = [] := by
      simp only [List.length_cons] at hlen3
      rw [← List.length_eq_zero]
      omega
    subst hrest
    rcases hpre with ⟨t, ht⟩
    have ht2 : 0 :: t = a :: b :: c :: [] := ht
    injection ht2 with h0 _
    have ha : a = 0 := h0.symm
    subst ha
    unfold isChain at hchain
    rw [List.chain'_cons] at hchain
    rcases hchain with ⟨h1, hchain2⟩
    rw [List.chain'_cons] at hchain2
    rcases hchain2 with ⟨h2, _⟩
    have hb : b = 1 := by
      unfold Graph.hasEdge gDisc at h1
      simp [pairEq] at h1
      omega
    subst hb
    have hc : c = 0 := by
      unfold Graph.hasEdge gDisc at h2
      simp [pairEq] at h2
      omega
    subst hc
    simp at hnd

/-- C2.  On a restricted graph with no Hamiltonian path from node 0
(the disconnected fixture), `_dfs_tsp` does not fail: it returns the
bare start sequence `[0]`.  No `RouteUnsolvable` error exists in the
code. -/
theorem dfs_no_route_returns_sequence :
    (¬ ∃ r, validRoute gDisc r) ∧ dfs_tsp gDisc = .ok [0] :=
  ⟨gDisc_no_route, by decide⟩

/-- C2 (amended).  On every well-formed graph containing node 0 in
which no Hamiltonian path from node 0 exists, the exact solver returns
the untouched initial best route `[0]` instead of raising. -/
theorem dfs_tsp_unsolvable_returns_start (g : Graph) (hwf : g.wf) (h0 : 0 ∈ g.nodes)
    (hnone : ¬ ∃ r, validRoute g r) : dfs_tsp g = .ok [0] := by
  rcases dfs_tsp_ok g hwf h0 with ⟨res, hres, hA, _, _⟩
  rcases hA with h | ⟨r, hrc, _⟩
  · unfold dfs_tsp
    rw [hres, h]
  · exact absurd ⟨r, hrc⟩ hnone

/-- Closed instantiation of `dfs_tsp_unsolvable_returns_start`. -/
theorem dfs_tsp_unsolvable_returns_start_witness : dfs_tsp gDisc = .ok [0] :=
  dfs_tsp_unsolvable_returns_start gDisc (by decide) (by decide) gDisc_no_route

/-- C10.  On the empty graph (which contains no complete route from
node 0), the solver does not return: the access `G[0]` raises a
`KeyError`, modelled by the error value. -/
theorem dfs_tsp_empty_graph_raises :
    dfs_tsp { nodes := [], edges := [] } = .error () := by decide

/-- C10 (amended).  On every well-formed graph whose node set contains
0, the solver returns (rather than raises) a list that begins with node
0 and has no duplicates, and that list is exactly `[0]` whenever no
complete route through all nodes exists; on a graph without node 0
(such as the empty graph) it raises `KeyError` instead. -/
theorem dfs_tsp_shape (g : Graph) (hwf : g.wf) (h0 : 0 ∈ g.nodes) :
    ∃ l, dfs_tsp g = .ok l ∧ l.head? = some 0 ∧ l.Nodup ∧
      ((¬ ∃ r, validRoute g r) → l = [0]) := by
  rcases dfs_tsp_ok g hwf h0 with ⟨res, hres, hA, _, _⟩
  rcases hA with h | ⟨r, hrc, hre⟩
  · refine ⟨[0], ?_, rfl, List.nodup_singleton _, fun _ => rfl⟩
    unfold dfs_tsp
    rw [hres, h]
  · refine ⟨r, ?_, ?_, hrc.2.1, ?_⟩
    · unfold dfs_tsp
      rw [hres, hre]
    · rcases hrc.1 with ⟨t, ht⟩
      rw [← ht]
      rfl
    · intro hnone
      exact absurd ⟨r, hrc⟩ hnone

/-- Closed instantiation of `dfs_tsp_shape`. -/
theorem dfs_tsp_shape_witness :
    ∃ l, dfs_tsp gDisc = .ok l ∧ l.head? = some 0 ∧ l.Nodup ∧
      ((¬ ∃ r, validRoute gDisc r) → l = [0]) :=
  dfs_tsp_shape gDisc (by decide) (by decide)

/-! ## Claim theorems on the result aggregator -/

/-- Stored travel time and weight coincide on every edge a builder
produced, so the aggregated total equals the route cost. -/
lemma sumConsecutive_travel_eq_cost {g : Graph}
    (hTT : ∀ e ∈ g.edges, e.2.travel_time = e.2.weight) :
    ∀ r, sumConsecutive (edgeTravelTime g) r = routeCost g r := by
  have hpt : ∀ u v, edgeTravelTime g u v = edgeWeight g u v := by
    intro u v
    unfold edgeTravelTime edgeWeight
    cases hf : g.edges.find? (fun e => pairEq e.1 (u, v)) with
    | none => rfl
    | some e => exact hTT e (List.mem_of_find?_eq_some hf)
  intro r
  induction r with
  | nil => rfl
  | cons u rest ih =>
    cases rest with
    | nil => rfl
    | cons v rest2 =>
      show edgeTravelTime g u v + sumConsecutive (edgeTravelTime g) (v :: rest2) =
        edgeWeight g u v + routeCost g (v :: rest2)
      rw [hpt, ih]

/-- C8.  The coordinate sequence `calculate_route` returns is the route
mapped over the swapped coordinate list, i.e. (lon, lat) pairs, not
(lat, lon) pairs: with start (lat 1, lon 2) and one relative
(lat 3, lon 4) the returned sequence is [(2, 1), (4, 3)], not
[(1, 2), (3, 4)]. -/
theorem calculate_route_swaps_latlon :
    calculate_route modesQ taxi [((0, 1), "bus")] (1, 2) [(3, 4)] =
      .ok { points := [(2, 1), (4, 3)], total_time := 11, total_distance := 4 } ∧
    ([((2 : ℚ), (1 : ℚ)), (4, 3)] : List Point) ≠ [(1, 2), (3, 4)] := by
  constructor
  · with_unfolding_all decide
  · decide

/-- C8 (amended).  For every input whose fixed table references only
in-range nodes, `calculate_route` succeeds and returns the ordered
coordinate sequence of the solved route as (lon, lat) pairs (the code
swaps latitude and longitude for plotting), a total travel time equal
to the sum of the traversed stored `travel_time` attributes, which
equals the sum of the traversed edge weights, and a total distance
recomputed independently as the sum of per-edge distances of
consecutive route points. -/
theorem calculate_route_summary (modes : ModeTable) (dist : Point → Point → ℚ)
    (network : List ((Nat × Nat) × String)) (start_point : ℚ × ℚ)
    (relatives : List (ℚ × ℚ))
    (hidx : ∀ r ∈ network, r.1.1 < relatives.length + 1 ∧ r.1.2 < relatives.length + 1) :
    ∃ g route,
      initialize_graph modes dist network
        ((start_point.2, start_point.1) :: relatives.map fun r => (r.2, r.1)) = .ok g ∧
      dfs_tsp g = .ok route ∧
      calculate_route modes dist network start_point relatives = .ok
        { points := route.map fun n =>
            (((start_point.2, start_point.1) :: relatives.map fun r => (r.2, r.1)).getD n (0, 0)),
          total_time := sumConsecutive (edgeTravelTime g) route,
          total_distance := sumDistances dist (route.map fun n =>
            (((start_point.2, start_point.1) :: relatives.map fun r => (r.2, r.1)).getD n (0, 0))) } ∧
      sumConsecutive (edgeTravelTime g) route = routeCost g route := by
  have hlen : ((start_point.2, start_point.1) :: relatives.map fun r => (r.2, r.1)).length =
      relatives.length + 1 := by
    rw [List.length_cons, List.length_map]
  have hidx2 : ∀ r ∈ network,
      r.1.1 < ((start_point.2, start_point.1) :: relatives.map fun r => (r.2, r.1)).length ∧
      r.1.2 < ((start_point.2, start_point.1) :: relatives.map fun r => (r.2, r.1)).length := by
    intro r hr
    rw [hlen]
    exact hidx r hr
  have hPd : ∀ (s t : Nat) (mode : String),
      s < ((start_point.2, start_point.1) :: relatives.map fun r => (r.2, r.1)).length →
      t < ((start_point.2, start_point.1) :: relatives.map fun r => (r.2, r.1)).length →
      ∀ x y, pairEq (x, y) (s, t) = true →
        (fun e : (Nat × Nat) × EdgeData => e.2.travel_time = e.2.weight)
          ((x, y), restrictedData modes dist
            ((start_point.2, start_point.1) :: relatives.map fun r => (r.2, r.1)) s t mode) :=
    fun _ _ _ _ _ _ _ _ => rfl
  rcases initialize_graph_ok modes dist network
    ((start_point.2, start_point.1) :: relatives.map fun r => (r.2, r.1))
    (fun e : (Nat × Nat) × EdgeData => e.2.travel_time = e.2.weight) hPd hidx2 with
    ⟨g, hok, hn, hmap, hTT⟩
  have hwf : g.wf := initialize_graph_wf hok hn hmap hidx2
  have h0 : 0 ∈ g.nodes := by
    rw [hn, List.mem_range, hlen]
    omega
  rcases dfs_tsp_ok g hwf h0 with ⟨res, hres, _, _, _⟩
  have hdfs : dfs_tsp g = .ok res.1 := by
    unfold dfs_tsp
    rw [hres]
  refine ⟨g, res.1, hok, hdfs, ?_, sumConsecutive_travel_eq_cost hTT res.1⟩
  unfold calculate_route
  simp only [hok, hdfs]

/-- Closed instantiation of `calculate_route_summary`. -/
theorem calculate_route_summary_witness :
    ∃ g route,
      initialize_graph modesQ taxi [((0, 1), "bus")]
        ((((1 : ℚ), (2 : ℚ)).2, ((1 : ℚ), (2 : ℚ)).1) ::
          ([((3 : ℚ), (4 : ℚ))].map fun r => (r.2, r.1))) = .ok g ∧
      dfs_tsp g = .ok route ∧
      calculate_route modesQ taxi [((0, 1), "bus")] (1, 2) [(3, 4)] = .ok
        { points := route.map fun n =>
            (((((1 : ℚ), (2 : ℚ)).2, ((1 : ℚ), (2 : ℚ)).1) ::
              ([((3 : ℚ), (4 : ℚ))].map fun r => (r.2, r.1))).getD n (0, 0)),
          total_time := sumConsecutive (edgeTravelTime g) route,
          total_distance := sumDistances taxi (route.map fun n =>
            (((((1 : ℚ), (2 : ℚ)).2, ((1 : ℚ), (2 : ℚ)).1) ::
              ([((3 : ℚ), (4 : ℚ))].map fun r => (r.2, r.1))).getD n (0, 0))) } ∧
      sumConsecutive (edgeTravelTime g) route = routeCost g route :=
  calculate_route_summary modesQ taxi [((0, 1), "bus")] (1, 2) [(3, 4)] (by decide)

end TarjanPlanner
